import Mathlib

/-!
# Verification of the kernel/version/boot-entry core of systemd-boot-friend

This file gives a shallow embedding, in Lean, of the pure core of the
`systemd-boot-friend` repository and proves (or refutes) the frozen claims
about it.  The embedding covers:

* `src/parser.rs` — the `nom`-based kernel version parser (`Version`,
  `version_digit`, `digit_after_dot`, `rc`, `rel`, `version`) and the
  `Display` rendering, over `List Char` (the `&str` input);
* the derived `Ord` instance on `Version` (Rust `#[derive(PartialOrd, Ord)]`,
  lexicographic over fields, with `None < Some(_)` on `Option` fields and
  byte-lexicographic `String` comparison, which for UTF-8 coincides with
  code-point lexicographic comparison);
* `src/kernel/mod.rs` — `same_files` / `safe_copy` as a state transformer over
  an abstract file pair (SHA-256 equality is modelled as content equality);
* `src/kernel/generic_kernel.rs` and `src/kernel.rs` — the `remove`,
  `set_default`, `remove_default` operations as transformers of the
  boot-loader default pointer, the `PartialEq` on `GenericKernel`, and the
  `list` / `list_installed` discovery loops;
* `src/main.rs` `update` and `src/kernel_manager.rs` `KernelManager::update`
  as event traces, and `parse_num_or_filename` with 64-bit wrapping
  subtraction made explicit (`% 2 ^ 64`).
-/

/-! ## Decimal digits and numbers

Helpers shared by the parser embedding: converting between decimal digit
characters and natural numbers, mirroring `str::parse::<u64>` and the decimal
`Display` of `u64`. -/

/-- The decimal digit character for `d` (used only for `d < 10`). -/
def digitCh (d : Nat) : Char :=
  match d with
  | 0 => '0' | 1 => '1' | 2 => '2' | 3 => '3' | 4 => '4'
  | 5 => '5' | 6 => '6' | 7 => '7' | 8 => '8' | 9 => '9'
  | _ => '*'

/-- Value of a big-endian list of decimal digit characters
(the accumulator loop inside `str::parse::<u64>`). -/
def charsToNat (s : List Char) : Nat :=
  s.foldl (fun a c => 10 * a + (c.toNat - 48)) 0

/-- `u64::MAX + 1`: the modulus of 64-bit machine arithmetic. -/
def U64SIZE : Nat := 2 ^ 64

/-- `str::parse::<u64>` (also `usize` on a 64-bit target): an optional leading
`+` sign, then a nonempty run of ASCII digits, failing on any other character
and on overflow past `u64::MAX`. -/
def stripSign (s : List Char) : List Char :=
  if s.head? = some '+' then s.tail else s

def parseU64 (s : List Char) : Option Nat :=
  if stripSign s ≠ [] ∧ (stripSign s).all Char.isDigit then
    if charsToNat (stripSign s) < U64SIZE then some (charsToNat (stripSign s))
    else none
  else none

/-- Decimal rendering of a natural number, as the `Display` of `u64` does
(no leading zeros, `"0"` for zero). -/
def natChars (n : Nat) : List Char :=
  if n = 0 then ['0'] else ((Nat.digits 10 n).map digitCh).reverse

/-! ## The `nom` combinators used by `src/parser.rs`

Each parser takes the input `List Char` and returns `Option (remaining ×
output)`, mirroring `IResult<&str, _>` with all error detail collapsed to
`none`. -/

/-- `nom::bytes::complete::tag t`: consume exactly the literal `t`. -/
def tagP (t i : List Char) : Option (List Char × List Char) :=
  if i.take t.length = t then some (i.drop t.length, t) else none

/-- `nom::character::complete::digit1`: consume the longest nonempty run of
ASCII digits. -/
def digit1 (i : List Char) : Option (List Char × List Char) :=
  if (i.takeWhile Char.isDigit).isEmpty then none
  else some (i.dropWhile Char.isDigit, i.takeWhile Char.isDigit)

/-- `nom::bytes::complete::take_until("-")`: consume up to (excluding) the
first `'-'`; fail when the input has none. -/
def takeUntilDash (i : List Char) : Option (List Char × List Char) :=
  if (i.dropWhile (fun c => c ≠ '-')).isEmpty then none
  else some (i.dropWhile (fun c => c ≠ '-'), i.takeWhile (fun c => c ≠ '-'))

/-! ## `src/parser.rs` -/

/-- `struct Version` of `src/parser.rs`.  Strings are embedded as `List Char`
(UTF-8 byte order and code-point order agree, so nothing is lost for the
derived comparisons). -/
structure Version where
  major : Nat
  minor : Nat
  patch : Nat
  rc : Option (List Char)
  rel : Option Nat
  localversion : List Char
deriving DecidableEq, Repr

/-- `fn version_digit`: `map_res(digit1, |x| x.parse())`. -/
def version_digit (i : List Char) : Option (List Char × Nat) :=
  match digit1 i with
  | none => none
  | some (r, ds) =>
    match parseU64 ds with
    | none => none
    | some n => some (r, n)

/-- `fn digit_after_dot`: `preceded(tag("."), version_digit)`. -/
def digit_after_dot (i : List Char) : Option (List Char × Nat) :=
  match tagP ['.'] i with
  | none => none
  | some (r, _) => version_digit r

/-- `fn rc`: `map(preceded(tag("-"), pair(tag("rc"), digit1)), ..)`, producing
the string `"rc"` followed by the digits. -/
def rcP (i : List Char) : Option (List Char × List Char) :=
  match tagP ['-'] i with
  | none => none
  | some (r, _) =>
    match tagP ['r', 'c'] r with
    | none => none
    | some (r2, _) =>
      match digit1 r2 with
      | none => none
      | some (r3, ds) => some (r3, 'r' :: 'c' :: ds)

/-- `fn rel`: `map_res(preceded(tag("-"), take_until("-")), |x| x.parse())`. -/
def relP (i : List Char) : Option (List Char × Nat) :=
  match tagP ['-'] i with
  | none => none
  | some (r, _) =>
    match takeUntilDash r with
    | none => none
    | some (r2, pre) =>
      match parseU64 pre with
      | none => none
      | some n => some (r2, n)

/-- `opt(p)`: never fails; on failure of `p` the input is left untouched. -/
def optStep (p : List Char → Option (List Char × α)) (i : List Char) :
    List Char × Option α :=
  match p i with
  | some (r, a) => (r, some a)
  | none => (i, none)

/-- `fn version`: the `tuple((version_digit, digit_after_dot,
opt(digit_after_dot), opt(rc), opt(rel)))` pipeline of `src/parser.rs`,
assembling a `Version` whose `localversion` is the unconsumed remainder. -/
def version (i : List Char) : Option (List Char × Version) :=
  match version_digit i with
  | none => none
  | some (i1, major) =>
    match digit_after_dot i1 with
    | none => none
    | some (i2, minor) =>
      let s3 := optStep digit_after_dot i2
      let s4 := optStep rcP s3.1
      let s5 := optStep relP s4.1
      some (s5.1,
        { major := major, minor := minor, patch := s3.2.getD 0,
          rc := s4.2, rel := s5.2, localversion := s5.1 })

/-- `Version::parse`: run `version` and keep the value (errors collapse to
`none`, as `anyhow` detail is irrelevant to the claims). -/
def Version.parse (s : String) : Option Version :=
  match version s.toList with
  | none => none
  | some (_, v) => some v

/-- The `impl fmt::Display for Version` of `src/parser.rs`:
`"{major}.{minor}.{patch}{-rc?}{-rel?}{localversion}"`. -/
def Version.render (v : Version) : List Char :=
  natChars v.major ++ '.' :: natChars v.minor ++ '.' :: natChars v.patch
    ++ (match v.rc with | some r => '-' :: r | none => [])
    ++ (match v.rel with | some n => '-' :: natChars n | none => [])
    ++ v.localversion

/-- `Display` output as a `String` (what `format!("{}", v)` produces). -/
def Version.renderStr (v : Version) : String :=
  String.mk v.render

/-! ## The derived `Ord` on `Version`

Rust's `#[derive(PartialOrd, Ord)]` on `Version` compares fields
lexicographically in declaration order; on `Option` fields `None` sorts below
`Some(_)`, and `String`s compare byte-lexicographically (equivalently
code-point-lexicographically, since UTF-8 preserves the order). -/

/-- Rust's derived `Ord` on `Option<T>`: `None < Some(_)`. -/
def cmpOpt (c : α → α → Ordering) : Option α → Option α → Ordering
  | none, none => .eq
  | none, some _ => .lt
  | some _, none => .gt
  | some a, some b => c a b

/-- Rust's `Ord` on sequences (`String`, `Vec`): lexicographic, a strict
prefix sorts first. -/
def cmpList (c : α → α → Ordering) : List α → List α → Ordering
  | [], [] => .eq
  | [], _ :: _ => .lt
  | _ :: _, [] => .gt
  | a :: as, b :: bs => (c a b).then (cmpList c as bs)

/-- Rust's `Ord` on `char` (scalar value order). -/
def cmpChar : Char → Char → Ordering :=
  compareOn Char.toNat

/-- Rust's `Ord` on `String` (byte order = code-point order). -/
def cmpStr : List Char → List Char → Ordering :=
  cmpList cmpChar

instance (c : α → α → Ordering) [inst : Batteries.OrientedCmp c] :
    Batteries.OrientedCmp (cmpOpt c) where
  symm a b := by
    cases a <;> cases b
    · rfl
    · rfl
    · rfl
    · exact inst.symm ..

instance (c : α → α → Ordering) [inst : Batteries.TransCmp c] :
    Batteries.TransCmp (cmpOpt c) where
  le_trans {a b d} h1 h2 := by
    cases a <;> cases b <;> cases d <;>
      simp_all [cmpOpt] <;> exact inst.le_trans h1 h2

instance (c : α → α → Ordering) [inst : Batteries.OrientedCmp c] :
    Batteries.OrientedCmp (cmpList c) where
  symm a b := by
    induction a generalizing b with
    | nil => cases b <;> rfl
    | cons x xs ih =>
      cases b with
      | nil => rfl
      | cons y ys =>
        simp only [cmpList, Ordering.swap_then, ih, inst.symm]

instance (c : α → α → Ordering) [inst : Batteries.TransCmp c] :
    Batteries.TransCmp (cmpList c) where
  le_trans {a b d} h1 h2 := by
    induction a generalizing b d with
    | nil => cases d <;> simp [cmpList]
    | cons x xs ih =>
      cases b with
      | nil => simp [cmpList] at h1
      | cons y ys =>
        cases d with
        | nil => simp [cmpList] at h2
        | cons z zs =>
          simp only [cmpList, ne_eq, Ordering.then_eq_gt, not_or, not_and] at h1 h2 ⊢
          obtain ⟨hxy, hxy2⟩ := h1
          obtain ⟨hyz, hyz2⟩ := h2
          refine ⟨inst.le_trans hxy hyz, fun hxz => ?_⟩
          have exy : c x y = .eq := by
            cases exy : c x y with
            | lt => exact absurd (inst.lt_le_trans exy hyz) (by simp [hxz])
            | eq => rfl
            | gt => exact absurd exy hxy
          have eyz : c y z = .eq := by
            cases eyz : c y z with
            | lt => exact absurd (inst.le_lt_trans hxy eyz) (by simp [hxz])
            | eq => rfl
            | gt => exact absurd eyz hyz
          exact ih (hxy2 exy) (hyz2 eyz)

instance : Batteries.TransCmp cmpChar :=
  inferInstanceAs (Batteries.TransCmp (compareOn Char.toNat))

instance : Batteries.TransCmp cmpStr :=
  inferInstanceAs (Batteries.TransCmp (cmpList cmpChar))

/-- The derived `Ord::cmp` on `Version` (field order: `major`, `minor`,
`patch`, `rc`, `rel`, `localversion`). -/
def Version.cmp : Version → Version → Ordering :=
  compareLex (Ordering.byKey Version.major compare)
    (compareLex (Ordering.byKey Version.minor compare)
      (compareLex (Ordering.byKey Version.patch compare)
        (compareLex (Ordering.byKey Version.rc (cmpOpt cmpStr))
          (compareLex (Ordering.byKey Version.rel (cmpOpt compare))
            (Ordering.byKey Version.localversion cmpStr)))))

instance : Batteries.TransCmp Version.cmp := by
  unfold Version.cmp; infer_instance

/-- The comparator `|a, b| b.cmp(a)` that `list`/`list_installed` pass to
`sort_by`, as the relation "may appear at or before": newest (greatest)
first. -/
def cmpGe (cmpK : K → K → Ordering) (a b : K) : Prop :=
  cmpK b a ≠ .gt

instance (cmpK : K → K → Ordering) : DecidableRel (cmpGe cmpK) :=
  fun a b => inferInstanceAs (Decidable (cmpK b a ≠ .gt))

instance (cmpK : K → K → Ordering) [inst : Batteries.TransCmp cmpK] :
    IsTotal K (cmpGe cmpK) where
  total a b := by
    rcases h : cmpK b a with h' | h' | h'
    · exact .inl (by simp [cmpGe, h])
    · exact .inl (by simp [cmpGe, h])
    · exact .inr (by simp [cmpGe, Batteries.OrientedCmp.cmp_eq_gt.1 h])

instance (cmpK : K → K → Ordering) [inst : Batteries.TransCmp cmpK] :
    IsTrans K (cmpGe cmpK) where
  trans a b c h1 h2 := inst.le_trans h2 h1

/-- `kernels.sort_by(|a, b| b.cmp(a))`: a stable sort under the
newest-first comparator, modelled by insertion sort (the Rust contract is
"sorted by the comparator and a permutation of the input", which is what the
theorems use). -/
def sortNewestFirst (cmpK : K → K → Ordering) (l : List K) : List K :=
  List.insertionSort (cmpGe cmpK) l

/-! ## `src/kernel/mod.rs`: `same_files` and `safe_copy`

File contents are byte lists; SHA-256 hash equality in `same_files` is
modelled as content equality (the collision-freeness abstraction the source
relies on).  `fs::copy` is modelled by an environment field `written` — the
byte count the copy reports, with the destination receiving exactly that
prefix of the source (short on a full disk). -/

structure CopyEnv where
  srcContent : List Nat
  destExists : Bool
  destContent : List Nat
  written : Nat
deriving DecidableEq, Repr

structure CopyResult where
  destExists : Bool
  destContent : List Nat
  performedCopy : Bool
  noSpaceErr : Bool
deriving DecidableEq, Repr

/-- `fn same_files`: SHA-256 of both files compared (content equality). -/
def same_files (f1 f2 : List Nat) : Bool :=
  f1 = f2

/-- `fn safe_copy`.  The Rust body is a single short-circuiting condition

`if dest.exists() && !same_files(src, dest)? && metadata(src).len() != copy(src, dest)? { remove_file(dest); bail!(no_space) }`

so `fs::copy` runs only while the condition is still being evaluated: only
when the destination exists *and* differs from the source.  When the
destination does not exist the whole condition short-circuits to `false` and
the function returns `Ok(())` without copying anything. -/
def safe_copy (e : CopyEnv) : CopyResult :=
  if e.destExists then
    if same_files e.srcContent e.destContent then
      { destExists := true, destContent := e.destContent,
        performedCopy := false, noSpaceErr := false }
    else
      if e.srcContent.length ≠ e.written then
        -- incomplete copy: `fs::remove_file(&dest)?; bail!(no_space)`
        { destExists := false, destContent := [],
          performedCopy := true, noSpaceErr := true }
      else
        { destExists := true, destContent := e.srcContent.take e.written,
          performedCopy := true, noSpaceErr := false }
  else
    { destExists := e.destExists, destContent := e.destContent,
      performedCopy := false, noSpaceErr := false }

/-! ## The boot-loader default pointer

`libsdbootconf`'s `config.default` (and `systemd_boot_conf`'s
`loader_conf.default`) is an `Option<String>`; `set_default` /
`remove_default` read-modify-write it. -/

/-- The value `GenericKernel::set_default` stores and
`GenericKernel::remove_default` compares against:
`self.entry.to_owned() + "-default.conf"`. -/
def gkDefaultId (entry : String) : String :=
  entry ++ "-default.conf"

/-- `GenericKernel::set_default` (effect on the default pointer). -/
def gkSetDefault (entry : String) (_d : Option String) : Option String :=
  some (gkDefaultId entry)

/-- `GenericKernel::remove_default`: clears the pointer only when it equals
this kernel's id. -/
def gkRemoveDefault (entry : String) (d : Option String) : Option String :=
  if d = some (gkDefaultId entry) then none else d

/-- `Kernel::set_default` of `src/kernel.rs` (the entry string there already
carries the `.conf` suffix). -/
def kSetDefault (entry : String) (_d : Option String) : Option String :=
  some entry

/-- `Kernel::remove_default` of `src/kernel.rs`. -/
def kRemoveDefault (entry : String) (d : Option String) : Option String :=
  if d = some entry then none else d

/-! ## The two `remove` implementations

Deletion success is an oracle `delOk : path → Bool` (the state of the ESP);
the result records which paths were attempted, which failures were warned
about, the final default pointer, and whether `remove` returned an error. -/

structure RemoveOut where
  attempted : List String
  warnings : List String
  defaultPtr : Option String
  errored : Bool
deriving DecidableEq, Repr

/-- One `fs::remove_file(..).map_err(|x| warn(.., x)).ok()` step of
`GenericKernel::remove`: always proceeds, warns on failure. -/
def deleteStep (delOk : String → Bool) (path : String) (acc : RemoveOut) :
    RemoveOut :=
  { acc with
    attempted := acc.attempted ++ [path],
    warnings := if delOk path then acc.warnings else acc.warnings ++ [path] }

/-- Entry file path written/removed per boot-argument profile:
`loader/entries/{entry}-{profile.replace(' ', "_")}.conf`. -/
def gkEntryPath (entry profile : String) : String :=
  "loader/entries/" ++ entry ++ "-" ++ profile.replace " " "_" ++ ".conf"

/-- `GenericKernel::remove` (src/kernel/generic_kernel.rs): best-effort
deletion of the kernel image, the initrd and every profile's entry file, then
`remove_default`; never returns an error from a failed deletion. -/
def gkRemove (vmlinux initrd entry : String) (profiles : List String)
    (delOk : String → Bool) (d : Option String) : RemoveOut :=
  let s1 := deleteStep delOk vmlinux
    { attempted := [], warnings := [], defaultPtr := d, errored := false }
  let s2 := deleteStep delOk initrd s1
  let s3 := profiles.foldl (fun acc p => deleteStep delOk (gkEntryPath entry p) acc) s2
  { s3 with defaultPtr := gkRemoveDefault entry s3.defaultPtr }

/-- `Kernel::remove` (src/kernel.rs): `remove_file(vmlinuz)?` and
`remove_file(entry)?` propagate failure with `?` (skipping the rest), only
the initrd deletion is `.ok()`-tolerated (silently, with no warning). -/
def kRemove (vmlinuz initrd entry : String) (delOk : String → Bool)
    (d : Option String) : RemoveOut :=
  if delOk vmlinuz then
    let entryPath := "loader/entries/" ++ entry
    if delOk entryPath then
      { attempted := [vmlinuz, initrd, entryPath], warnings := [],
        defaultPtr := kRemoveDefault entry d, errored := false }
    else
      { attempted := [vmlinuz, initrd, entryPath], warnings := [],
        defaultPtr := d, errored := true }
  else
    { attempted := [vmlinuz], warnings := [], defaultPtr := d, errored := true }

/-! ## `GenericKernel` and its `PartialEq`

`GenericKernel` (src/kernel/generic_kernel.rs) is embedded generically over
the version type `V`, since `GenericVersion` lives behind the `generic`
feature; the fields mirror the struct (the `sbconf` handle carries no value
identity and the hand-written `PartialEq` ignores it). -/

structure GenericKernel (V : Type) where
  version : V
  vmlinux : String
  initrd : String
  distro : String
  espMountpoint : String
  entry : String
  bootargs : List (String × String)
deriving DecidableEq

/-- The hand-written `impl PartialEq for GenericKernel`: compares `version`,
`vmlinux`, `initrd` and `entry` only. -/
def gkEq [DecidableEq V] (a b : GenericKernel V) : Bool :=
  decide (a.version = b.version) && decide (a.vmlinux = b.vmlinux) &&
    decide (a.initrd = b.initrd) && decide (a.entry = b.entry)

/-! ## The two `update` implementations as event traces

`update` drives only four kernel operations; on the all-success path the
sequence of operations is a pure function of the two input lists.  `contains`
uses the kernel's `PartialEq`, passed in as `beq` (elements of the vector are
compared against the probe on the left, as `Vec::contains` does). -/

inductive KEvent (K : Type) where
  | install (k : K)
  | makeConfig (k : K)
  | remove (k : K)
  | setDefault (k : K)
deriving DecidableEq, Repr

/-- `k.install_and_make_config(true)` for each available kernel, in order. -/
def installSeq (kernels : List K) : List (KEvent K) :=
  kernels.flatMap fun k => [KEvent.install k, KEvent.makeConfig k]

/-- `for k in installed { if !kernels.contains(k) { k.remove() } }`. -/
def removeSeq (beq : K → K → Bool) (installed kernels : List K) :
    List (KEvent K) :=
  (installed.filter fun k => !(kernels.any fun x => beq x k)).map KEvent.remove

/-- `if let Some(k) = kernels.first() { k.set_default() }`. -/
def defaultSeq (kernels : List K) : List (KEvent K) :=
  match kernels.head? with
  | some k => [KEvent.setDefault k]
  | none => []

/-- `fn update` of `src/main.rs` (lines 273–297): install all, then remove
obsoleted, then set the newest as default. -/
def updateTrace (beq : K → K → Bool) (installed kernels : List K) :
    List (KEvent K) :=
  installSeq kernels ++ removeSeq beq installed kernels ++ defaultSeq kernels

/-- `KernelManager::update` of `src/kernel_manager.rs` (lines 109–133):
remove obsoleted FIRST, then install all, then set the newest as default. -/
def kmUpdateTrace (beq : K → K → Bool) (installed kernels : List K) :
    List (KEvent K) :=
  removeSeq beq installed kernels ++ installSeq kernels ++ defaultSeq kernels

/-! ## `parse_num_or_filename` (src/main.rs, lines 194–206) -/

inductive TargetResult (K : Type) where
  | kernel (k : K)
  | invalidIndex
  | invalidVersion
deriving DecidableEq, Repr

/-- `parse_num_or_filename`: a target that parses as `usize` selects the
1-based list position via `kernels.get(num - 1)`; `num - 1` is 64-bit
wrapping subtraction (release overflow semantics), written out as
`(num + (U64SIZE - 1)) % U64SIZE`.  A non-numeric target is parsed as a
kernel name. -/
def parse_num_or_filename (parseK : String → Option K) (n : String)
    (kernels : List K) : TargetResult K :=
  match parseU64 n.toList with
  | some num =>
    match kernels.get? ((num + (U64SIZE - 1)) % U64SIZE) with
    | some k => .kernel k
    | none => .invalidIndex
  | none =>
    match parseK n with
    | some k => .kernel k
    | none => .invalidVersion

/-! ## Discovery: `list` and `list_installed`

Generic over the kernel value `K` produced by `parse` and its comparator
(`GenericKernel::list` at src/kernel/generic_kernel.rs:291–355 and the
identical `Kernel::list` of src/kernel.rs).  A module directory is a name
plus the presence bits of the three marker files. -/

structure ModuleDir where
  name : String
  hasDep : Bool
  hasOrder : Bool
  hasBuiltin : Bool
deriving DecidableEq, Repr

/-- The marker check: `modules.dep`, `modules.order` and `modules.builtin`
all present. -/
def completeModules (d : ModuleDir) : Bool :=
  d.hasDep && d.hasOrder && d.hasBuiltin

/-- The body of `GenericKernel::list`: accept a complete, parseable
candidate; skip (with a warning naming the directory) a candidate that is
incomplete or unparseable.  Returns the accepted kernels in directory order
plus the warned-about names. -/
def listScan (parseK : String → Option K) :
    List ModuleDir → List K × List String
  | [] => ([], [])
  | d :: ds =>
    let rest := listScan parseK ds
    if completeModules d then
      match parseK d.name with
      | some k => (k :: rest.1, rest.2)
      | none => (rest.1, d.name :: rest.2)    -- skip_unidentified_kernel
    else
      (rest.1, d.name :: rest.2)              -- skip_incomplete_kernel

/-- `GenericKernel::list`: scan then `sort_by(|a, b| b.cmp(a))`.  Never
returns an error for a skipped candidate. -/
def listAvailable (parseK : String → Option K) (cmpK : K → K → Ordering)
    (dirs : List ModuleDir) : List K × List String :=
  let s := listScan parseK dirs
  (sortNewestFirst cmpK s.1, s.2)

/-- The loop body of `list_installed`: filenames not matching the template
regex are skipped silently, but a matching filename whose captured version
fails `Self::parse` aborts the whole listing with `?`. -/
def installedScan (parseK : String → Option K)
    (matcher : String → Option String) :
    List String → Except Unit (List K)
  | [] => .ok []
  | f :: fs =>
    match matcher f with
    | none => installedScan parseK matcher fs
    | some ver =>
      match parseK ver with
      | none => .error ()                      -- `Self::parse(..)?` propagates
      | some k =>
        match installedScan parseK matcher fs with
        | .error e => .error e
        | .ok ks => .ok (k :: ks)

/-- `GenericKernel::list_installed`: scan the ESP directory listing, then
sort newest-first. -/
def listInstalled (parseK : String → Option K) (cmpK : K → K → Ordering)
    (matcher : String → Option String) (files : List String) :
    Except Unit (List K) :=
  match installedScan parseK matcher files with
  | .error e => .error e
  | .ok ks => .ok (sortNewestFirst cmpK ks)

/-- The capture function of the `Regex::new(&config.vmlinux.replace("{VERSION}",
"(?P<version>.+)"))` match for the default template `vmlinuz-{VERSION}`:
a filename starting with `vmlinuz-` followed by at least one character
captures that remainder as the version. -/
def vmlinuzMatcher (f : String) : Option String :=
  if 8 < f.toList.length ∧ f.toList.take 8 = "vmlinuz-".toList then
    some (String.mk (f.toList.drop 8))
  else none


/-- The next input character (if any) is not a decimal digit — the boundary
condition after a maximal `digit1` run. -/
def notDigitStart (l : List Char) : Prop :=
  ∀ c, l.head? = some c → c.isDigit = false

/-- Every invariant a `Version` produced by a successful `version` run
satisfies; exactly what is needed for the render/re-parse round trip. -/
def VersionInv (v : Version) : Prop :=
  v.major < U64SIZE ∧ v.minor < U64SIZE ∧ v.patch < U64SIZE ∧
    (∀ r, v.rc = some r →
      ∃ ds, r = 'r' :: 'c' :: ds ∧ ds ≠ [] ∧ ∀ c ∈ ds, c.isDigit = true) ∧
    (∀ n, v.rel = some n → n < U64SIZE ∧ v.localversion.head? = some '-') ∧
    (v.rel = none → relP v.localversion = none) ∧
    (v.rc = none → v.rel = none → rcP v.localversion = none) ∧
    notDigitStart v.localversion

/-- An install-phase event (`install` or `make_config`). -/
def isInstallPhase : KEvent K → Bool
  | .install _ => true
  | .makeConfig _ => true
  | _ => false

/-- A removal event. -/
def isRemoveEv : KEvent K → Bool
  | .remove _ => true
  | _ => false

/-! ## Parser unit tests (the `#[cfg(test)]` vectors of src/parser.rs) -/

example : Version.parse "5.12.0-rc3-aosc-main" =
    some ⟨5, 12, 0, some ['r', 'c', '3'], none, "-aosc-main".toList⟩ := by decide
example : Version.parse "5.12-aosc-main" =
    some ⟨5, 12, 0, none, none, "-aosc-main".toList⟩ := by decide
example : Version.parse "5.15.12-100.fc34.x86_64" =
    some ⟨5, 15, 12, none, none, "-100.fc34.x86_64".toList⟩ := by decide
example : Version.parse "5.10.0-11-amd64" =
    some ⟨5, 10, 0, none, some 11, "-amd64".toList⟩ := by decide

theorem sortNewestFirst_sorted (cmpK : K → K → Ordering)
    [Batteries.TransCmp cmpK] (l : List K) :
    (sortNewestFirst cmpK l).Sorted (cmpGe cmpK) :=
  List.sorted_insertionSort _ l

theorem sortNewestFirst_perm (cmpK : K → K → Ordering) (l : List K) :
    (sortNewestFirst cmpK l).Perm l :=
  List.perm_insertionSort _ l

/-! ## Helper lemmas: decimal digits -/

theorem digitCh_isDigit {d : Nat} (h : d < 10) : (digitCh d).isDigit = true := by
  interval_cases d <;> decide

theorem digitCh_toNat {d : Nat} (h : d < 10) : (digitCh d).toNat - 48 = d := by
  interval_cases d <;> decide

theorem charsToNat_append_singleton (xs : List Char) (c : Char) :
    charsToNat (xs ++ [c]) = 10 * charsToNat xs + (c.toNat - 48) := by
  simp [charsToNat, List.foldl_append]

theorem charsToNat_mapped_digits (L : List Nat) (h : ∀ d ∈ L, d < 10) :
    charsToNat ((L.map digitCh).reverse) = Nat.ofDigits 10 L := by
  induction L with
  | nil => simp [charsToNat, Nat.ofDigits]
  | cons d L ih =>
    have hd : d < 10 := h d (by simp)
    have hL : ∀ x ∈ L, x < 10 := fun x hx => h x (by simp [hx])
    simp only [List.map_cons, List.reverse_cons, charsToNat_append_singleton,
      ih hL, digitCh_toNat hd, Nat.ofDigits_cons]
    ring

theorem charsToNat_natChars (n : Nat) : charsToNat (natChars n) = n := by
  by_cases h : n = 0
  · subst h; decide
  · rw [natChars, if_neg h,
      charsToNat_mapped_digits _ (fun d hd => Nat.digits_lt_base (by norm_num) hd),
      Nat.ofDigits_digits]

theorem natChars_ne_nil (n : Nat) : natChars n ≠ [] := by
  by_cases h : n = 0
  · subst h; decide
  · rw [natChars, if_neg h]
    simp [Nat.digits_ne_nil_iff_ne_zero.2 h]

theorem natChars_all_digit (n : Nat) : ∀ c ∈ natChars n, c.isDigit = true := by
  by_cases h : n = 0
  · subst h; intro c hc; simp [natChars] at hc; subst hc; decide
  · rw [natChars, if_neg h]
    intro c hc
    simp only [List.mem_reverse, List.mem_map] at hc
    obtain ⟨d, hd, rfl⟩ := hc
    exact digitCh_isDigit (Nat.digits_lt_base (by norm_num) hd)

/-! ## Helper lemmas: takeWhile / dropWhile -/

theorem takeWhile_append_sat {p : Char → Bool} {ds : List Char}
    (h : ∀ c ∈ ds, p c = true) (r : List Char) :
    (ds ++ r).takeWhile p = ds ++ r.takeWhile p := by
  induction ds with
  | nil => simp
  | cons a l ih =>
    have ha : p a = true := h a (by simp)
    simp only [List.cons_append, List.takeWhile_cons, ha, if_true,
      ih (fun c hc => h c (by simp [hc]))]

theorem dropWhile_append_sat {p : Char → Bool} {ds : List Char}
    (h : ∀ c ∈ ds, p c = true) (r : List Char) :
    (ds ++ r).dropWhile p = r.dropWhile p := by
  induction ds with
  | nil => simp
  | cons a l ih =>
    have ha : p a = true := h a (by simp)
    simp only [List.cons_append, List.dropWhile_cons, ha, if_true,
      ih (fun c hc => h c (by simp [hc]))]

theorem takeWhile_nil_of_head {p : Char → Bool} {r : List Char}
    (h : ∀ c, r.head? = some c → p c = false) : r.takeWhile p = [] := by
  cases r with
  | nil => rfl
  | cons a l => simp [List.takeWhile_cons, h a rfl]

theorem dropWhile_self_of_head {p : Char → Bool} {r : List Char}
    (h : ∀ c, r.head? = some c → p c = false) : r.dropWhile p = r := by
  cases r with
  | nil => rfl
  | cons a l => simp [List.dropWhile_cons, h a rfl]

theorem dropWhile_head_false {p : Char → Bool} {l : List Char} :
    ∀ c, (l.dropWhile p).head? = some c → p c = false := by
  induction l with
  | nil => intro c h; simp at h
  | cons a l ih =>
    intro c h
    rw [List.dropWhile_cons] at h
    by_cases hp : p a = true
    · exact ih c (by simpa [hp] using h)
    · rw [if_neg hp] at h
      simp only [List.head?_cons, Option.some.injEq] at h
      subst h
      simpa using hp

/-! ## Helper lemmas: the individual parsers -/

theorem parseU64_some_lt {s : List Char} {n : Nat} (h : parseU64 s = some n) :
    n < U64SIZE := by
  unfold parseU64 at h
  split at h
  · split at h
    · rename_i hlt
      exact Option.some.inj h ▸ hlt
    · simp at h
  · simp at h

theorem parseU64_digits {ds : List Char} (hne : ds ≠ [])
    (hd : ∀ c ∈ ds, c.isDigit = true) (hlt : charsToNat ds < U64SIZE) :
    parseU64 ds = some (charsToNat ds) := by
  have hplus : ds.head? ≠ some '+' := by
    cases ds with
    | nil => simp at hne
    | cons a l =>
      have := hd a (by simp)
      simp only [List.head?_cons, ne_eq, Option.some.injEq]
      intro h; subst h; simp at this
  have hstrip : stripSign ds = ds := by rw [stripSign, if_neg hplus]
  unfold parseU64
  rw [hstrip, if_pos ⟨hne, List.all_eq_true.2 hd⟩, if_pos hlt]

theorem digit1_some {i r ds : List Char} (h : digit1 i = some (r, ds)) :
    i = ds ++ r ∧ ds ≠ [] ∧ (∀ c ∈ ds, c.isDigit = true) ∧ notDigitStart r := by
  unfold digit1 at h
  split at h
  · simp at h
  · rename_i hne
    obtain ⟨hr, hds⟩ : i.dropWhile Char.isDigit = r ∧ i.takeWhile Char.isDigit = ds := by
      constructor <;> [exact congrArg Prod.fst (Option.some.inj h);
        exact congrArg Prod.snd (Option.some.inj h)]
    subst hr; subst hds
    refine ⟨(List.takeWhile_append_dropWhile ..).symm, ?_, ?_, ?_⟩
    · simpa [List.isEmpty_iff] using hne
    · exact fun c hc => List.mem_takeWhile_imp hc
    · exact fun c hc => dropWhile_head_false c hc

theorem digit1_mk {ds r : List Char} (hne : ds ≠ [])
    (hd : ∀ c ∈ ds, c.isDigit = true) (hr : notDigitStart r) :
    digit1 (ds ++ r) = some (r, ds) := by
  have ht : (ds ++ r).takeWhile Char.isDigit = ds := by
    rw [takeWhile_append_sat hd, takeWhile_nil_of_head hr, List.append_nil]
  have hdr : (ds ++ r).dropWhile Char.isDigit = r := by
    rw [dropWhile_append_sat hd, dropWhile_self_of_head hr]
  unfold digit1
  rw [ht, hdr, if_neg (by simpa [List.isEmpty_iff] using hne)]

theorem tagP_some {t i r o : List Char} (h : tagP t i = some (r, o)) :
    o = t ∧ i = t ++ r := by
  unfold tagP at h
  split at h
  · rename_i htake
    obtain ⟨hr, ho⟩ : i.drop t.length = r ∧ t = o := by
      constructor <;> [exact congrArg Prod.fst (Option.some.inj h);
        exact congrArg Prod.snd (Option.some.inj h)]
    subst hr
    refine ⟨ho.symm, ?_⟩
    have hi : i = i.take t.length ++ i.drop t.length :=
      (List.take_append_drop ..).symm
    rw [htake] at hi
    exact hi
  · simp at h

theorem tagP_mk (t r : List Char) : tagP t (t ++ r) = some (r, t) := by
  unfold tagP
  rw [List.take_left, if_pos rfl, List.drop_left]

theorem version_digit_some {i r : List Char} {n : Nat}
    (h : version_digit i = some (r, n)) :
    n < U64SIZE ∧ notDigitStart r ∧
      ∃ ds, i = ds ++ r ∧ ds ≠ [] ∧ (∀ c ∈ ds, c.isDigit = true) := by
  unfold version_digit at h
  rcases hd1 : digit1 i with _ | ⟨rr, ds⟩
  · simp only [hd1] at h
    exact Option.noConfusion h
  · simp only [hd1] at h
    rcases hp : parseU64 ds with _ | m
    · simp only [hp] at h
      exact Option.noConfusion h
    · simp only [hp, Option.some.injEq, Prod.mk.injEq] at h
      obtain ⟨h1, h2⟩ := h
      subst h1; subst h2
      obtain ⟨hi, hne, hdig, hnd⟩ := digit1_some hd1
      exact ⟨parseU64_some_lt hp, hnd, ds, hi, hne, hdig⟩

theorem version_digit_mk {r : List Char} {n : Nat} (hn : n < U64SIZE)
    (hr : notDigitStart r) :
    version_digit (natChars n ++ r) = some (r, n) := by
  have h1 := digit1_mk (natChars_ne_nil n) (natChars_all_digit n) hr
  have h2 := parseU64_digits (natChars_ne_nil n) (natChars_all_digit n)
    (by rw [charsToNat_natChars]; exact hn)
  unfold version_digit
  simp only [h1, h2, charsToNat_natChars]

theorem digit_after_dot_some {i r : List Char} {n : Nat}
    (h : digit_after_dot i = some (r, n)) :
    n < U64SIZE ∧ notDigitStart r := by
  unfold digit_after_dot at h
  rcases ht : tagP ['.'] i with _ | ⟨rr, o⟩
  · simp only [ht] at h
    exact Option.noConfusion h
  · simp only [ht] at h
    obtain ⟨h1, h2, _⟩ := version_digit_some h
    exact ⟨h1, h2⟩

theorem digit_after_dot_mk {r : List Char} {n : Nat} (hn : n < U64SIZE)
    (hr : notDigitStart r) :
    digit_after_dot ('.' :: (natChars n ++ r)) = some (r, n) := by
  have ht : tagP ['.'] ('.' :: (natChars n ++ r)) = some (natChars n ++ r, ['.']) := by
    simpa using tagP_mk ['.'] (natChars n ++ r)
  unfold digit_after_dot
  simp only [ht, version_digit_mk hn hr]

theorem rcP_some {i r s : List Char} (h : rcP i = some (r, s)) :
    notDigitStart r ∧
      ∃ ds, s = 'r' :: 'c' :: ds ∧ ds ≠ [] ∧ (∀ c ∈ ds, c.isDigit = true) := by
  unfold rcP at h
  rcases h1 : tagP ['-'] i with _ | ⟨r1, o1⟩
  · simp only [h1] at h
    exact Option.noConfusion h
  · simp only [h1] at h
    rcases h2 : tagP ['r', 'c'] r1 with _ | ⟨r2, o2⟩
    · simp only [h2] at h
      exact Option.noConfusion h
    · simp only [h2] at h
      rcases h3 : digit1 r2 with _ | ⟨r3, ds⟩
      · simp only [h3] at h
        exact Option.noConfusion h
      · simp only [h3, Option.some.injEq, Prod.mk.injEq] at h
        obtain ⟨hr, hs⟩ := h
        subst hr; subst hs
        obtain ⟨_, hne, hdig, hnd⟩ := digit1_some h3
        exact ⟨hnd, ds, rfl, hne, hdig⟩

theorem rcP_mk {ds r : List Char} (hne : ds ≠ [])
    (hd : ∀ c ∈ ds, c.isDigit = true) (hr : notDigitStart r) :
    rcP ('-' :: 'r' :: 'c' :: (ds ++ r)) = some (r, 'r' :: 'c' :: ds) := by
  have h1 : tagP ['-'] ('-' :: 'r' :: 'c' :: (ds ++ r)) =
      some ('r' :: 'c' :: (ds ++ r), ['-']) := by
    simpa using tagP_mk ['-'] ('r' :: 'c' :: (ds ++ r))
  have h2 : tagP ['r', 'c'] ('r' :: 'c' :: (ds ++ r)) = some (ds ++ r, ['r', 'c']) := by
    simpa using tagP_mk ['r', 'c'] (ds ++ r)
  unfold rcP
  simp only [h1, h2, digit1_mk hne hd hr]

/-- `tag("rc")` fails when the input starts with a character other than
`'r'` — in particular with a decimal digit. -/
theorem rcP_none_of_digit_head {i : List Char} {c : Char}
    (hc : c.isDigit = true) (t : List Char) (hi : i = c :: t) :
    rcP ('-' :: i) = none := by
  subst hi
  have h1 : tagP ['-'] ('-' :: c :: t) = some (c :: t, ['-']) := by
    simpa using tagP_mk ['-'] (c :: t)
  have h2 : tagP ['r', 'c'] (c :: t) = none := by
    unfold tagP
    rw [if_neg]
    intro hcontra
    have : c = 'r' := by
      have := congrArg (List.head? ·) hcontra
      cases t <;> simpa using this
    subst this
    simp at hc
  unfold rcP
  simp only [h1, h2]

theorem takeUntilDash_some {i r2 pre : List Char}
    (h : takeUntilDash i = some (r2, pre)) : r2.head? = some '-' := by
  unfold takeUntilDash at h
  split at h
  · exact Option.noConfusion h
  · rename_i hne
    obtain ⟨hr, _⟩ : i.dropWhile (fun c => c ≠ '-') = r2 ∧
        i.takeWhile (fun c => c ≠ '-') = pre := by
      constructor <;> [exact congrArg Prod.fst (Option.some.inj h);
        exact congrArg Prod.snd (Option.some.inj h)]
    subst hr
    rcases hd : (i.dropWhile (fun c => c ≠ '-')) with _ | ⟨a, l⟩
    · rw [hd] at hne; simp at hne
    · have := dropWhile_head_false (p := fun c => c ≠ '-') (l := i) a
        (by rw [hd]; rfl)
      simp only [List.head?_cons]
      simpa using this

theorem takeUntilDash_mk {pre : List Char} (hpre : ∀ c ∈ pre, (c ≠ '-' : Bool) = true)
    (t : List Char) :
    takeUntilDash (pre ++ '-' :: t) = some ('-' :: t, pre) := by
  have hhead : ∀ c, (('-' :: t).head? = some c) → ((c ≠ '-' : Bool) = false) := by
    intro c hc
    simp only [List.head?_cons, Option.some.injEq] at hc
    subst hc; simp
  have hdrop : (pre ++ '-' :: t).dropWhile (fun c => c ≠ '-') = '-' :: t := by
    rw [dropWhile_append_sat hpre, dropWhile_self_of_head hhead]
  have htake : (pre ++ '-' :: t).takeWhile (fun c => c ≠ '-') = pre := by
    rw [takeWhile_append_sat hpre, takeWhile_nil_of_head hhead, List.append_nil]
  unfold takeUntilDash
  rw [hdrop, htake, if_neg (by simp)]

theorem relP_some {i r2 : List Char} {n : Nat} (h : relP i = some (r2, n)) :
    n < U64SIZE ∧ r2.head? = some '-' := by
  unfold relP at h
  rcases h1 : tagP ['-'] i with _ | ⟨r1, o1⟩
  · simp only [h1] at h
    exact Option.noConfusion h
  · simp only [h1] at h
    rcases h2 : takeUntilDash r1 with _ | ⟨rr, pre⟩
    · simp only [h2] at h
      exact Option.noConfusion h
    · simp only [h2] at h
      rcases h3 : parseU64 pre with _ | m
      · simp only [h3] at h
        exact Option.noConfusion h
      · simp only [h3, Option.some.injEq, Prod.mk.injEq] at h
        obtain ⟨hr, hn⟩ := h
        subst hr; subst hn
        exact ⟨parseU64_some_lt h3, takeUntilDash_some h2⟩

theorem relP_mk {t : List Char} {n : Nat} (hn : n < U64SIZE)
    (ht : t.head? = some '-') :
    relP ('-' :: (natChars n ++ t)) = some (t, n) := by
  have h1 : tagP ['-'] ('-' :: (natChars n ++ t)) = some (natChars n ++ t, ['-']) := by
    simpa using tagP_mk ['-'] (natChars n ++ t)
  have hnd : ∀ c ∈ natChars n, (c ≠ '-' : Bool) = true := by
    intro c hc
    have := natChars_all_digit n c hc
    simp only [ne_eq, decide_eq_true_eq]
    intro hcontra
    subst hcontra
    simp at this
  obtain ⟨t2, ht2⟩ : ∃ t2, t = '-' :: t2 := by
    cases t with
    | nil => simp at ht
    | cons a l =>
      simp only [List.head?_cons, Option.some.injEq] at ht
      exact ⟨l, by rw [ht]⟩
  have h2 : takeUntilDash (natChars n ++ t) = some (t, natChars n) := by
    rw [ht2]
    exact takeUntilDash_mk hnd t2
  have h3 : parseU64 (natChars n) = some n := by
    rw [parseU64_digits (natChars_ne_nil n) (natChars_all_digit n)
      (by rw [charsToNat_natChars]; exact hn), charsToNat_natChars]
  unfold relP
  simp only [h1, h2, h3]

/-! ## Characterizing `version`'s output -/

theorem optStep_some {p : List Char → Option (List Char × α)} {i r : List Char}
    {a : α} (h : p i = some (r, a)) : optStep p i = (r, some a) := by
  unfold optStep
  rw [h]

theorem optStep_none {p : List Char → Option (List Char × α)} {i : List Char}
    (h : p i = none) : optStep p i = (i, none) := by
  unfold optStep
  rw [h]

theorem notDigitStart_of_dash {l : List Char} (h : l.head? = some '-') :
    notDigitStart l := by
  intro c hc
  rw [h] at hc
  cases hc
  decide

theorem version_tail_inv {i3 rest : List Char} {v : Version}
    {major minor patchv : Nat}
    (hmajor : major < U64SIZE) (hminor : minor < U64SIZE)
    (hpatch : patchv < U64SIZE) (hnd3 : notDigitStart i3)
    (h : some ((optStep relP (optStep rcP i3).1).1,
        { major := major, minor := minor, patch := patchv,
          rc := (optStep rcP i3).2,
          rel := (optStep relP (optStep rcP i3).1).2,
          localversion := (optStep relP (optStep rcP i3).1).1 }) =
      some (rest, (v : Version))) :
    rest = v.localversion ∧ VersionInv v := by
  rcases h4 : rcP i3 with _ | ⟨i4, rcs⟩
  · simp only [optStep_none h4] at h
    rcases h5 : relP i3 with _ | ⟨i5, n⟩
    · simp only [optStep_none h5, Option.some.injEq, Prod.mk.injEq] at h
      obtain ⟨hrest, hv⟩ := h
      subst hv
      refine ⟨hrest.symm, hmajor, hminor, hpatch, ?_, ?_, ?_, ?_, ?_⟩
      · intro r hr; exact Option.noConfusion hr
      · intro n hn; exact Option.noConfusion hn
      · intro _; exact h5
      · intro _ _; exact h4
      · exact hnd3
    · simp only [optStep_some h5, Option.some.injEq, Prod.mk.injEq] at h
      obtain ⟨hrest, hv⟩ := h
      subst hv
      obtain ⟨hn, hdash⟩ := relP_some h5
      refine ⟨hrest.symm, hmajor, hminor, hpatch, ?_, ?_, ?_, ?_, ?_⟩
      · intro r hr; exact Option.noConfusion hr
      · intro m hm
        cases hm
        exact ⟨hn, hdash⟩
      · intro hcontra; exact Option.noConfusion hcontra
      · intro _ hcontra; exact Option.noConfusion hcontra
      · exact notDigitStart_of_dash hdash
  · simp only [optStep_some h4] at h
    obtain ⟨hnd4, ds, hshape, hdsne, hdsdig⟩ := rcP_some h4
    rcases h5 : relP i4 with _ | ⟨i5, n⟩
    · simp only [optStep_none h5, Option.some.injEq, Prod.mk.injEq] at h
      obtain ⟨hrest, hv⟩ := h
      subst hv
      refine ⟨hrest.symm, hmajor, hminor, hpatch, ?_, ?_, ?_, ?_, ?_⟩
      · intro r hr
        cases hr
        exact ⟨ds, hshape, hdsne, hdsdig⟩
      · intro m hm; exact Option.noConfusion hm
      · intro _; exact h5
      · intro hcontra; exact Option.noConfusion hcontra
      · exact hnd4
    · simp only [optStep_some h5, Option.some.injEq, Prod.mk.injEq] at h
      obtain ⟨hrest, hv⟩ := h
      subst hv
      obtain ⟨hn, hdash⟩ := relP_some h5
      refine ⟨hrest.symm, hmajor, hminor, hpatch, ?_, ?_, ?_, ?_, ?_⟩
      · intro r hr
        cases hr
        exact ⟨ds, hshape, hdsne, hdsdig⟩
      · intro m hm
        cases hm
        exact ⟨hn, hdash⟩
      · intro hcontra; exact Option.noConfusion hcontra
      · intro hcontra; exact Option.noConfusion hcontra
      · exact notDigitStart_of_dash hdash

theorem version_some_inv {i rest : List Char} {v : Version}
    (h : version i = some (rest, v)) : rest = v.localversion ∧ VersionInv v := by
  unfold version at h
  rcases h1 : version_digit i with _ | ⟨i1, major⟩
  · simp only [h1] at h
    exact Option.noConfusion h
  simp only [h1] at h
  rcases h2 : digit_after_dot i1 with _ | ⟨i2, minor⟩
  · simp only [h2] at h
    exact Option.noConfusion h
  simp only [h2] at h
  have hmajor := (version_digit_some h1).1
  have hminor := (digit_after_dot_some h2).1
  rcases h3 : digit_after_dot i2 with _ | ⟨i3, patchv⟩
  · simp only [optStep_none h3, Option.getD_none] at h
    exact version_tail_inv hmajor hminor (by rw [U64SIZE]; positivity)
      (digit_after_dot_some h2).2 h
  · simp only [optStep_some h3, Option.getD_some] at h
    exact version_tail_inv hmajor hminor (digit_after_dot_some h3).1
      (digit_after_dot_some h3).2 h

theorem notDigitStart_cons {c : Char} (h : c.isDigit = false) (t : List Char) :
    notDigitStart (c :: t) := by
  intro x hx
  cases hx
  exact h

theorem natChars_cons (n : Nat) : ∃ c t, natChars n = c :: t ∧ c.isDigit = true := by
  rcases h : natChars n with _ | ⟨c, t⟩
  · exact absurd h (natChars_ne_nil n)
  · exact ⟨c, t, rfl, natChars_all_digit n c (by rw [h]; simp)⟩

/-- Re-parsing the `Display` rendering of any `Version` satisfying the parse
invariant reproduces the `Version` exactly, with the local-version text as
the unconsumed remainder. -/
theorem version_render_eq {v : Version} (hinv : VersionInv v) :
    version v.render = some (v.localversion, v) := by
  obtain ⟨ma, mi, pa, orc, orl, lv⟩ := v
  obtain ⟨hma, hmi, hpa, hrc, hrl, hrlnone, hrcnone, hnd⟩ := hinv
  dsimp only at hma hmi hpa hrc hrl hrlnone hrcnone hnd ⊢
  rcases orc with _ | rcs <;> rcases orl with _ | n
  · -- rc = none, rel = none
    have h5 : relP lv = none := hrlnone rfl
    have h4 : rcP lv = none := hrcnone rfl rfl
    have hrender : Version.render ⟨ma, mi, pa, none, none, lv⟩ =
        natChars ma ++ '.' :: (natChars mi ++ '.' :: (natChars pa ++ lv)) := by
      simp [Version.render, List.append_assoc]
    have h1 : version_digit
        (natChars ma ++ '.' :: (natChars mi ++ '.' :: (natChars pa ++ lv))) =
        some ('.' :: (natChars mi ++ '.' :: (natChars pa ++ lv)), ma) :=
      version_digit_mk hma (notDigitStart_cons (by decide) _)
    have h2 : digit_after_dot ('.' :: (natChars mi ++ '.' :: (natChars pa ++ lv))) =
        some ('.' :: (natChars pa ++ lv), mi) :=
      digit_after_dot_mk hmi (notDigitStart_cons (by decide) _)
    have h3 : digit_after_dot ('.' :: (natChars pa ++ lv)) = some (lv, pa) :=
      digit_after_dot_mk hpa hnd
    rw [hrender]
    unfold version
    simp only [h1, h2, optStep_some h3, optStep_none h4, optStep_none h5,
      Option.getD_some]
  · -- rc = none, rel = some n
    obtain ⟨hn, hdash⟩ := hrl n rfl
    obtain ⟨c, t, hct, hcdig⟩ := natChars_cons n
    have hrender : Version.render ⟨ma, mi, pa, none, some n, lv⟩ =
        natChars ma ++ '.' :: (natChars mi ++ '.' ::
          (natChars pa ++ '-' :: (natChars n ++ lv))) := by
      simp [Version.render, List.append_assoc]
    have h1 : version_digit (natChars ma ++ '.' :: (natChars mi ++ '.' ::
        (natChars pa ++ '-' :: (natChars n ++ lv)))) =
        some ('.' :: (natChars mi ++ '.' ::
          (natChars pa ++ '-' :: (natChars n ++ lv))), ma) :=
      version_digit_mk hma (notDigitStart_cons (by decide) _)
    have h2 : digit_after_dot ('.' :: (natChars mi ++ '.' ::
        (natChars pa ++ '-' :: (natChars n ++ lv)))) =
        some ('.' :: (natChars pa ++ '-' :: (natChars n ++ lv)), mi) :=
      digit_after_dot_mk hmi (notDigitStart_cons (by decide) _)
    have h3 : digit_after_dot ('.' :: (natChars pa ++ '-' :: (natChars n ++ lv))) =
        some ('-' :: (natChars n ++ lv), pa) :=
      digit_after_dot_mk hpa (notDigitStart_cons (by decide) _)
    have h4 : rcP ('-' :: (natChars n ++ lv)) = none :=
      rcP_none_of_digit_head hcdig (t ++ lv) (by rw [hct]; simp)
    have h5 : relP ('-' :: (natChars n ++ lv)) = some (lv, n) := relP_mk hn hdash
    rw [hrender]
    unfold version
    simp only [h1, h2, optStep_some h3, optStep_none h4, optStep_some h5,
      Option.getD_some]
  · -- rc = some rcs, rel = none
    obtain ⟨ds, hshape, hdsne, hdsdig⟩ := hrc rcs rfl
    subst hshape
    have h5 : relP lv = none := hrlnone rfl
    have hrender : Version.render ⟨ma, mi, pa, some ('r' :: 'c' :: ds), none, lv⟩ =
        natChars ma ++ '.' :: (natChars mi ++ '.' ::
          (natChars pa ++ '-' :: 'r' :: 'c' :: (ds ++ lv))) := by
      simp [Version.render, List.append_assoc]
    have h1 : version_digit (natChars ma ++ '.' :: (natChars mi ++ '.' ::
        (natChars pa ++ '-' :: 'r' :: 'c' :: (ds ++ lv)))) =
        some ('.' :: (natChars mi ++ '.' ::
          (natChars pa ++ '-' :: 'r' :: 'c' :: (ds ++ lv))), ma) :=
      version_digit_mk hma (notDigitStart_cons (by decide) _)
    have h2 : digit_after_dot ('.' :: (natChars mi ++ '.' ::
        (natChars pa ++ '-' :: 'r' :: 'c' :: (ds ++ lv)))) =
        some ('.' :: (natChars pa ++ '-' :: 'r' :: 'c' :: (ds ++ lv)), mi) :=
      digit_after_dot_mk hmi (notDigitStart_cons (by decide) _)
    have h3 : digit_after_dot ('.' :: (natChars pa ++ '-' :: 'r' :: 'c' :: (ds ++ lv))) =
        some ('-' :: 'r' :: 'c' :: (ds ++ lv), pa) :=
      digit_after_dot_mk hpa (notDigitStart_cons (by decide) _)
    have h4 : rcP ('-' :: 'r' :: 'c' :: (ds ++ lv)) = some (lv, 'r' :: 'c' :: ds) :=
      rcP_mk hdsne hdsdig hnd
    rw [hrender]
    unfold version
    simp only [h1, h2, optStep_some h3, optStep_some h4, optStep_none h5,
      Option.getD_some]
  · -- rc = some rcs, rel = some n
    obtain ⟨ds, hshape, hdsne, hdsdig⟩ := hrc rcs rfl
    subst hshape
    obtain ⟨hn, hdash⟩ := hrl n rfl
    obtain ⟨c, t, hct, hcdig⟩ := natChars_cons n
    have hrender : Version.render ⟨ma, mi, pa, some ('r' :: 'c' :: ds), some n, lv⟩ =
        natChars ma ++ '.' :: (natChars mi ++ '.' :: (natChars pa ++
          '-' :: 'r' :: 'c' :: (ds ++ '-' :: (natChars n ++ lv)))) := by
      simp [Version.render, List.append_assoc]
    have h1 : version_digit (natChars ma ++ '.' :: (natChars mi ++ '.' ::
        (natChars pa ++ '-' :: 'r' :: 'c' :: (ds ++ '-' :: (natChars n ++ lv))))) =
        some ('.' :: (natChars mi ++ '.' :: (natChars pa ++
          '-' :: 'r' :: 'c' :: (ds ++ '-' :: (natChars n ++ lv)))), ma) :=
      version_digit_mk hma (notDigitStart_cons (by decide) _)
    have h2 : digit_after_dot ('.' :: (natChars mi ++ '.' :: (natChars pa ++
        '-' :: 'r' :: 'c' :: (ds ++ '-' :: (natChars n ++ lv))))) =
        some ('.' :: (natChars pa ++
          '-' :: 'r' :: 'c' :: (ds ++ '-' :: (natChars n ++ lv))), mi) :=
      digit_after_dot_mk hmi (notDigitStart_cons (by decide) _)
    have h3 : digit_after_dot ('.' :: (natChars pa ++
        '-' :: 'r' :: 'c' :: (ds ++ '-' :: (natChars n ++ lv)))) =
        some ('-' :: 'r' :: 'c' :: (ds ++ '-' :: (natChars n ++ lv)), pa) :=
      digit_after_dot_mk hpa (notDigitStart_cons (by decide) _)
    have h4 : rcP ('-' :: 'r' :: 'c' :: (ds ++ '-' :: (natChars n ++ lv))) =
        some ('-' :: (natChars n ++ lv), 'r' :: 'c' :: ds) :=
      rcP_mk hdsne hdsdig (notDigitStart_cons (by decide) _)
    have h5 : relP ('-' :: (natChars n ++ lv)) = some (lv, n) := relP_mk hn hdash
    rw [hrender]
    unfold version
    simp only [h1, h2, optStep_some h3, optStep_some h4, optStep_some h5,
      Option.getD_some]

/-! ## Helper lemmas: `remove` -/

theorem foldl_deleteStep_fields {α : Type} (delOk : String → Bool)
    (f : α → String) (paths : List α) (s : RemoveOut) :
    paths.foldl (fun acc p => deleteStep delOk (f p) acc) s =
      { attempted := s.attempted ++ paths.map f,
        warnings := s.warnings ++ (paths.map f).filter (fun p => !delOk p),
        defaultPtr := s.defaultPtr, errored := s.errored } := by
  induction paths generalizing s with
  | nil => cases s; simp
  | cons p ps ih =>
    rw [List.foldl_cons, ih]
    cases hd : delOk (f p) <;>
      simp [deleteStep, hd, List.filter_cons, List.append_assoc]

theorem gkRemove_eq (vmlinux initrd entry : String) (profiles : List String)
    (delOk : String → Bool) (d : Option String) :
    gkRemove vmlinux initrd entry profiles delOk d =
      { attempted := vmlinux :: initrd :: profiles.map (gkEntryPath entry),
        warnings := (vmlinux :: initrd :: profiles.map (gkEntryPath entry)).filter
          (fun p => !delOk p),
        defaultPtr := gkRemoveDefault entry d,
        errored := false } := by
  simp only [gkRemove]
  rw [foldl_deleteStep_fields]
  cases h1 : delOk vmlinux <;> cases h2 : delOk initrd <;>
    simp [deleteStep, h1, h2, List.filter_cons]

/-! ## Claim C1 -/

/-- C1: the claim says `safe_copy` copies in every case except
"destination exists and is identical", including when the destination does
not exist.  The code's `&&` chain short-circuits on `dest.exists()`, so with
a missing destination NO copy is performed and `Ok(())` is returned (first
conjunct — the divergence); the other three conjuncts confirm the remaining
branches: identical content is skipped, a short write deletes the
destination and raises the no-space error, and a full write overwrites the
destination with the source content. -/
theorem c1_safe_copy_behavior :
    safe_copy
        { srcContent := [1, 2, 3], destExists := false, destContent := [],
          written := 3 } =
      { destExists := false, destContent := [], performedCopy := false,
        noSpaceErr := false } ∧
    safe_copy
        { srcContent := [1, 2, 3], destExists := true, destContent := [1, 2, 3],
          written := 3 } =
      { destExists := true, destContent := [1, 2, 3], performedCopy := false,
        noSpaceErr := false } ∧
    safe_copy
        { srcContent := [1, 2, 3], destExists := true, destContent := [9],
          written := 2 } =
      { destExists := false, destContent := [], performedCopy := true,
        noSpaceErr := true } ∧
    safe_copy
        { srcContent := [1, 2, 3], destExists := true, destContent := [9],
          written := 3 } =
      { destExists := true, destContent := [1, 2, 3], performedCopy := true,
        noSpaceErr := false } := by
  decide

/-! ## Claim C3 -/

/-- C3: removing a kernel clears the boot-loader default pointer exactly when
it equals this kernel's entry id, and leaves any other pointer value (or no
value) untouched — for `GenericKernel::remove_default`, for the pointer
effect of `GenericKernel::remove`, and for `Kernel::remove_default` of
src/kernel.rs (whose id is the raw `entry` string). -/
theorem c3_remove_default_frame (vmlinux initrd entry : String)
    (profiles : List String) (delOk : String → Bool) (d : Option String) :
    (d = some (gkDefaultId entry) →
      gkRemoveDefault entry d = none ∧
      (gkRemove vmlinux initrd entry profiles delOk d).defaultPtr = none) ∧
    (d ≠ some (gkDefaultId entry) →
      gkRemoveDefault entry d = d ∧
      (gkRemove vmlinux initrd entry profiles delOk d).defaultPtr = d) ∧
    (d = some entry → kRemoveDefault entry d = none) ∧
    (d ≠ some entry → kRemoveDefault entry d = d) := by
  refine ⟨fun h => ?_, fun h => ?_, fun h => ?_, fun h => ?_⟩
  · rw [gkRemove_eq]
    constructor <;> simp [gkRemoveDefault, h]
  · rw [gkRemove_eq]
    constructor <;> simp [gkRemoveDefault, h]
  · simp [kRemoveDefault, h]
  · simp [kRemoveDefault, h]

/-- Witness for C3 at a concrete kernel and store state (both directions of
the frame condition). -/
theorem c3_witness :
    gkRemoveDefault "5.10.0-x" (some (gkDefaultId "5.10.0-x")) = none ∧
    (gkRemove "vmlinuz-5.10.0-x" "initramfs-5.10.0-x.img" "5.10.0-x"
      ["default"] (fun _ => true) (some (gkDefaultId "5.10.0-x"))).defaultPtr =
      none ∧
    gkRemoveDefault "5.10.0-x" (some "other-entry") = some "other-entry" := by
  refine ⟨?_, ?_, ?_⟩
  · exact ((c3_remove_default_frame "vmlinuz-5.10.0-x" "initramfs-5.10.0-x.img"
      "5.10.0-x" ["default"] (fun _ => true) (some (gkDefaultId "5.10.0-x"))).1
      rfl).1
  · exact ((c3_remove_default_frame "vmlinuz-5.10.0-x" "initramfs-5.10.0-x.img"
      "5.10.0-x" ["default"] (fun _ => true) (some (gkDefaultId "5.10.0-x"))).1
      rfl).2
  · exact ((c3_remove_default_frame "vmlinuz-5.10.0-x" "initramfs-5.10.0-x.img"
      "5.10.0-x" ["default"] (fun _ => true) (some "other-entry")).2.1
      (by simp [gkDefaultId])).1

/-! ## Claim C6 -/

/-- C6 counterexample: `Kernel::remove` of src/kernel.rs propagates a failed
kernel-image deletion with `?`: it returns an error and never attempts the
initrd or the entry file, refuting "a failure to delete any one of these
three artifacts … never causes remove() itself to return an error or to skip
the remaining deletions". -/
theorem c6_counterexample :
    (kRemove "vmlinuz-5.1" "initramfs-5.1.img" "5.1.conf"
      (fun p => !(p == "vmlinuz-5.1")) (some "5.1.conf")).errored = true ∧
    (kRemove "vmlinuz-5.1" "initramfs-5.1.img" "5.1.conf"
      (fun p => !(p == "vmlinuz-5.1")) (some "5.1.conf")).attempted =
      ["vmlinuz-5.1"] := by
  constructor <;> rfl

/-- C6 amended: `GenericKernel::remove` attempts all three kinds of artifact
(kernel image, initrd, every profile's entry file), reports each failed
deletion as a warning and never returns an error; `Kernel::remove`
(src/kernel.rs) silently tolerates only an initrd deletion failure — a failed
kernel-image deletion errors out immediately (skipping the rest), and a
failed entry-file deletion errors out after the other two deletions. -/
theorem c6_remove_tolerance (vmlinux initrd entry : String)
    (profiles : List String) (delOk : String → Bool) (d : Option String) :
    ((gkRemove vmlinux initrd entry profiles delOk d).errored = false ∧
     (gkRemove vmlinux initrd entry profiles delOk d).attempted =
       vmlinux :: initrd :: profiles.map (gkEntryPath entry) ∧
     (gkRemove vmlinux initrd entry profiles delOk d).warnings =
       (vmlinux :: initrd :: profiles.map (gkEntryPath entry)).filter
         (fun p => !delOk p)) ∧
    (delOk vmlinux = false →
      (kRemove vmlinux initrd entry delOk d).errored = true ∧
      (kRemove vmlinux initrd entry delOk d).attempted = [vmlinux]) ∧
    (delOk vmlinux = true → delOk ("loader/entries/" ++ entry) = false →
      (kRemove vmlinux initrd entry delOk d).errored = true ∧
      (kRemove vmlinux initrd entry delOk d).attempted =
        [vmlinux, initrd, "loader/entries/" ++ entry]) ∧
    (delOk vmlinux = true → delOk ("loader/entries/" ++ entry) = true →
      (kRemove vmlinux initrd entry delOk d).errored = false ∧
      (kRemove vmlinux initrd entry delOk d).attempted =
        [vmlinux, initrd, "loader/entries/" ++ entry]) := by
  refine ⟨?_, fun h1 => ?_, fun h1 h2 => ?_, fun h1 h2 => ?_⟩
  · rw [gkRemove_eq]
    exact ⟨rfl, rfl, rfl⟩
  · unfold kRemove
    rw [if_neg (by simp [h1])]
    exact ⟨rfl, rfl⟩
  · unfold kRemove
    rw [if_pos h1, if_neg (by simp [h2])]
    exact ⟨rfl, rfl⟩
  · unfold kRemove
    rw [if_pos h1, if_pos h2]
    exact ⟨rfl, rfl⟩

/-- Witness for C6 (amended) at a concrete kernel whose initrd deletion
fails: `GenericKernel::remove` warns about exactly the initrd and still
succeeds; `Kernel::remove` also succeeds with all three paths attempted. -/
theorem c6_witness :
    (gkRemove "vmlinuz-5.1" "initramfs-5.1.img" "5.1" ["default"]
      (fun p => !(p == "initramfs-5.1.img")) none).errored = false ∧
    (gkRemove "vmlinuz-5.1" "initramfs-5.1.img" "5.1" ["default"]
      (fun p => !(p == "initramfs-5.1.img")) none).warnings =
      ["initramfs-5.1.img"] ∧
    (kRemove "vmlinuz-5.1" "initramfs-5.1.img" "5.1.conf"
      (fun p => !(p == "initramfs-5.1.img")) none).errored = false := by
  have h := c6_remove_tolerance "vmlinuz-5.1" "initramfs-5.1.img" "5.1"
    ["default"] (fun p => !(p == "initramfs-5.1.img")) none
  have h2 := c6_remove_tolerance "vmlinuz-5.1" "initramfs-5.1.img" "5.1.conf"
    [] (fun p => !(p == "initramfs-5.1.img")) none
  refine ⟨h.1.1, ?_, (h2.2.2.2 rfl rfl).1⟩
  · rw [h.1.2.2]
    rfl

/-! ## Claim C9 -/

theorem wrap_sub_one {num : Nat} (h1 : 1 ≤ num) (h2 : num < U64SIZE) :
    (num + (U64SIZE - 1)) % U64SIZE = num - 1 := by
  have hsz : U64SIZE = 2 ^ 64 := rfl
  have heq : num + (U64SIZE - 1) = (num - 1) + 1 * U64SIZE := by
    rw [hsz] at *
    omega
  rw [heq, Nat.add_mul_mod_self_right, Nat.mod_eq_of_lt (by omega)]

theorem wrap_zero_sub_one : (0 + (U64SIZE - 1)) % U64SIZE = U64SIZE - 1 := by
  rw [Nat.zero_add, Nat.mod_eq_of_lt (by rw [U64SIZE]; omega)]

/-- C9: a numeric target selects the kernel at the 1-based position when in
range, and yields `InvalidIndex` for every out-of-range number — including
`0`, where the wrapping `num - 1` becomes `2^64 - 1`, which is out of range
for any list shorter than `2^64`; the non-numeric branch never reaches the
index computation. -/
theorem c9_parse_num_total {K : Type} (parseK : String → Option K)
    (n : String) (kernels : List K) (num : Nat)
    (hnum : parseU64 n.toList = some num) (hlen : kernels.length < U64SIZE) :
    (∀ (h1 : 1 ≤ num) (h2 : num ≤ kernels.length),
      parse_num_or_filename parseK n kernels =
        .kernel (kernels.get ⟨num - 1, by omega⟩)) ∧
    (num = 0 ∨ kernels.length < num →
      parse_num_or_filename parseK n kernels = .invalidIndex) := by
  have hub := parseU64_some_lt hnum
  constructor
  · intro h1 h2
    unfold parse_num_or_filename
    simp only [hnum]
    rw [wrap_sub_one h1 hub,
      List.get?_eq_get (by omega : num - 1 < kernels.length)]
  · intro hout
    unfold parse_num_or_filename
    simp only [hnum]
    rcases hout with h0 | hgt
    · subst h0
      rw [wrap_zero_sub_one, List.get?_eq_none.2 (by rw [U64SIZE] at *; omega)]
    · rw [wrap_sub_one (by omega) hub,
        List.get?_eq_none.2 (by omega)]

/-- Witness for C9: target `"2"` on a three-kernel list yields the second
kernel; targets `"0"` and `"4"` yield `InvalidIndex`. -/
theorem c9_witness :
    parse_num_or_filename (fun _ => (none : Option Nat)) "2" [10, 20, 30] =
      .kernel 20 ∧
    parse_num_or_filename (fun _ => (none : Option Nat)) "0" [10, 20, 30] =
      .invalidIndex ∧
    parse_num_or_filename (fun _ => (none : Option Nat)) "4" [10, 20, 30] =
      .invalidIndex := by
  have hlen : ([10, 20, 30] : List Nat).length < U64SIZE := by
    rw [U64SIZE]; norm_num
  refine ⟨?_, ?_, ?_⟩
  · have h := (c9_parse_num_total (fun _ => (none : Option Nat)) "2"
      [10, 20, 30] 2 (by decide) hlen).1 (by omega) (by simp)
    simpa using h
  · exact (c9_parse_num_total (fun _ => (none : Option Nat)) "0"
      [10, 20, 30] 0 (by decide) hlen).2 (Or.inl rfl)
  · exact (c9_parse_num_total (fun _ => (none : Option Nat)) "4"
      [10, 20, 30] 4 (by decide) hlen).2 (Or.inr (by simp))

/-! ## Claim C10 -/

/-- C10: the hand-written `PartialEq` on `GenericKernel` holds exactly when
`version`, the expanded `vmlinux` filename, the expanded `initrd` filename
and the `entry` id agree — and it ignores the distro label, the ESP
mountpoint and the boot arguments entirely (the second conjunct overrides
those three fields arbitrarily without affecting equality). -/
theorem c10_gk_eq {V : Type} [DecidableEq V] (a b : GenericKernel V) :
    (gkEq a b = true ↔
      a.version = b.version ∧ a.vmlinux = b.vmlinux ∧ a.initrd = b.initrd ∧
        a.entry = b.entry) ∧
    (∀ (dl em : String) (args : List (String × String)),
      gkEq a { a with distro := dl, espMountpoint := em, bootargs := args } =
        true) := by
  constructor
  · simp [gkEq, and_assoc]
  · intro dl em args
    simp [gkEq]

/-! ## Claim C4 -/

/-- C4 counterexample: two successfully parsed versions with equal
`major`/`minor`/`patch`, one without a release-candidate tag and one with,
where the version WITHOUT the tag compares as `lt` (not `gt`): under the
derived `Ord`, `None < Some(_)`, so a final release sorts BELOW its own
release candidate. -/
theorem c4_counterexample :
    Version.parse "5.12.1" = some ⟨5, 12, 1, none, none, []⟩ ∧
    Version.parse "5.12.1-rc1" = some ⟨5, 12, 1, some ['r', 'c', '1'], none, []⟩ ∧
    Version.cmp ⟨5, 12, 1, none, none, []⟩
      ⟨5, 12, 1, some ['r', 'c', '1'], none, []⟩ = Ordering.lt ∧
    ¬ Version.cmp ⟨5, 12, 1, none, none, []⟩
      ⟨5, 12, 1, some ['r', 'c', '1'], none, []⟩ = Ordering.gt := by
  refine ⟨by decide, by decide, by decide, by decide⟩

/-- C4 amended: for every two successfully parsed versions with equal
`major`, `minor` and `patch` where the first has no release-candidate tag
and the second has one, the version WITHOUT the tag compares as LESSER
(`lt`), and the tagged one as greater — the opposite tie-break of the one
the claim states. -/
theorem c4_no_rc_sorts_below (s1 s2 : String) (v1 v2 : Version)
    (r : List Char) (h1 : Version.parse s1 = some v1)
    (h2 : Version.parse s2 = some v2) (hma : v1.major = v2.major)
    (hmi : v1.minor = v2.minor) (hpa : v1.patch = v2.patch)
    (hrc1 : v1.rc = none) (hrc2 : v2.rc = some r) :
    Version.cmp v1 v2 = Ordering.lt ∧ Version.cmp v2 v1 = Ordering.gt := by
  have hrefl : ∀ m : Nat, compare m m = Ordering.eq := fun m =>
    Batteries.OrientedCmp.cmp_refl
  constructor <;>
    simp [Version.cmp, compareLex, Ordering.byKey, hma, hmi, hpa, hrc1, hrc2,
      hrefl, cmpOpt, Ordering.then]

/-- Witness for C4 (amended) at the concrete pair `5.12.1` / `5.12.1-rc1`. -/
theorem c4_witness :
    Version.cmp ⟨5, 12, 1, none, none, []⟩
      ⟨5, 12, 1, some ['r', 'c', '1'], none, []⟩ = Ordering.lt ∧
    Version.cmp ⟨5, 12, 1, some ['r', 'c', '1'], none, []⟩
      ⟨5, 12, 1, none, none, []⟩ = Ordering.gt :=
  c4_no_rc_sorts_below "5.12.1" "5.12.1-rc1" ⟨5, 12, 1, none, none, []⟩
    ⟨5, 12, 1, some ['r', 'c', '1'], none, []⟩ ['r', 'c', '1']
    (by decide) (by decide) rfl rfl rfl rfl rfl

/-! ## Claim C5 -/

/-- C5: for every string that parses into a `Version`, re-parsing the
`Display` rendering succeeds and returns the very same `Version` — in
particular the `major`, `minor`, `patch`, `rc` and `rel` fields are all
preserved (and so is the local-version text). -/
theorem c5_parse_render_roundtrip (s : String) (v : Version)
    (h : Version.parse s = some v) :
    Version.parse v.renderStr = some v := by
  obtain ⟨rest, hv⟩ : ∃ rest, version s.toList = some (rest, v) := by
    unfold Version.parse at h
    rcases hh : version s.toList with _ | ⟨rest, w⟩
    · rw [hh] at h
      exact Option.noConfusion h
    · rw [hh] at h
      exact ⟨rest, by rw [Option.some.inj h]⟩
  have hinv := (version_some_inv hv).2
  unfold Version.parse Version.renderStr
  have hl : (String.mk v.render).toList = v.render := rfl
  rw [hl, version_render_eq hinv]

/-- Witness for C5 at `5.10.0-11-amd64` (render and re-parse reproduce the
parsed value exactly). -/
theorem c5_witness :
    Version.parse (Version.renderStr ⟨5, 10, 0, none, some 11, "-amd64".toList⟩) =
      some ⟨5, 10, 0, none, some 11, "-amd64".toList⟩ :=
  c5_parse_render_roundtrip "5.10.0-11-amd64"
    ⟨5, 10, 0, none, some 11, "-amd64".toList⟩ (by decide)

/-! ## Claim C8 -/

/-- C8: `"5.10.0-11-amd64"` parses to major 5, minor 10, patch 0, no rc,
release 11 and local suffix `-amd64`; and in general the `rel` parser
captures a `-`-delimited numeric token that is followed by a further
`-`-separated suffix as the release number, leaving the suffix (with its
leading `-`) unconsumed. -/
theorem c8_debian_release (ds t : List Char) (hne : ds ≠ [])
    (hdig : ∀ c ∈ ds, c.isDigit = true) (hlt : charsToNat ds < U64SIZE) :
    Version.parse "5.10.0-11-amd64" =
      some ⟨5, 10, 0, none, some 11, "-amd64".toList⟩ ∧
    relP ('-' :: (ds ++ '-' :: t)) = some ('-' :: t, charsToNat ds) := by
  constructor
  · decide
  · have hnd : ∀ c ∈ ds, (c ≠ '-' : Bool) = true := by
      intro c hc
      have := hdig c hc
      simp only [ne_eq, decide_eq_true_eq]
      intro hcontra
      subst hcontra
      simp at this
    have h1 : tagP ['-'] ('-' :: (ds ++ '-' :: t)) = some (ds ++ '-' :: t, ['-']) := by
      simpa using tagP_mk ['-'] (ds ++ '-' :: t)
    have h2 := takeUntilDash_mk hnd t
    have h3 := parseU64_digits hne hdig hlt
    unfold relP
    simp only [h1, h2, h3]

/-- Witness for C8: the general release-capture statement applied at the
Debian-style digits `11` and suffix `amd64`. -/
theorem c8_witness :
    charsToNat ['1', '1'] = 11 ∧
    relP ('-' :: (['1', '1'] ++ '-' :: "amd64".toList)) =
      some ('-' :: "amd64".toList, charsToNat ['1', '1']) :=
  ⟨by decide,
    (c8_debian_release ['1', '1'] "amd64".toList (by decide) (by decide)
      (by decide)).2⟩

/-! ## Helper lemmas: update traces -/

theorem mem_installSeq_shape {e : KEvent K} {kernels : List K}
    (h : e ∈ installSeq kernels) :
    isInstallPhase e = true ∧ isRemoveEv e = false := by
  unfold installSeq at h
  rw [List.mem_flatMap] at h
  obtain ⟨k, _, hk⟩ := h
  simp only [List.mem_cons, List.mem_singleton, List.not_mem_nil, or_false] at hk
  rcases hk with rfl | rfl
  · exact ⟨rfl, rfl⟩
  · exact ⟨rfl, rfl⟩

theorem mem_removeSeq_shape {e : KEvent K} {beq : K → K → Bool}
    {installed kernels : List K} (h : e ∈ removeSeq beq installed kernels) :
    isInstallPhase e = false ∧ isRemoveEv e = true := by
  unfold removeSeq at h
  rw [List.mem_map] at h
  obtain ⟨k, _, hk⟩ := h
  subst hk
  exact ⟨rfl, rfl⟩

theorem mem_defaultSeq_shape {e : KEvent K} {kernels : List K}
    (h : e ∈ defaultSeq kernels) :
    isInstallPhase e = false ∧ isRemoveEv e = false := by
  unfold defaultSeq at h
  rcases kernels with _ | ⟨a, l⟩
  · simp at h
  · simp only [List.head?_cons, List.mem_singleton] at h
    subst h
    exact ⟨rfl, rfl⟩

theorem install_mem_installSeq {k : K} {kernels : List K} (h : k ∈ kernels) :
    KEvent.install k ∈ installSeq kernels ∧
      KEvent.makeConfig k ∈ installSeq kernels := by
  unfold installSeq
  constructor <;> (rw [List.mem_flatMap]; exact ⟨k, h, by simp⟩)

theorem remove_mem_removeSeq_iff {k : K} {beq : K → K → Bool}
    {installed kernels : List K} :
    KEvent.remove k ∈ removeSeq beq installed kernels ↔
      k ∈ installed ∧ (kernels.any fun x => beq x k) = false := by
  unfold removeSeq
  rw [List.mem_map]
  constructor
  · rintro ⟨j, hj, hjk⟩
    obtain rfl : j = k := by
      simpa using hjk
    rw [List.mem_filter] at hj
    exact ⟨hj.1, by simpa using hj.2⟩
  · rintro ⟨hmem, hnone⟩
    exact ⟨k, List.mem_filter.2 ⟨hmem, by simpa using hnone⟩, rfl⟩

theorem setDefault_mem_defaultSeq_iff {k : K} {kernels : List K} :
    KEvent.setDefault k ∈ defaultSeq kernels ↔ kernels.head? = some k := by
  unfold defaultSeq
  rcases kernels with _ | ⟨a, l⟩
  · simp
  · simp only [List.head?_cons, List.mem_singleton, KEvent.setDefault.injEq,
      Option.some.injEq]
    exact ⟨fun h => by rw [h], fun h => by rw [h]⟩

theorem remove_mem_updateTrace_iff {k : K} {beq : K → K → Bool}
    {installed kernels : List K} :
    KEvent.remove k ∈ updateTrace beq installed kernels ↔
      k ∈ installed ∧ (kernels.any fun x => beq x k) = false := by
  unfold updateTrace
  simp only [List.mem_append]
  constructor
  · rintro ((h | h) | h)
    · exact absurd (mem_installSeq_shape h).2 (by simp [isRemoveEv])
    · exact remove_mem_removeSeq_iff.1 h
    · exact absurd (mem_defaultSeq_shape h).2 (by simp [isRemoveEv])
  · intro h
    exact Or.inl (Or.inr (remove_mem_removeSeq_iff.2 h))

theorem remove_mem_kmUpdateTrace_iff {k : K} {beq : K → K → Bool}
    {installed kernels : List K} :
    KEvent.remove k ∈ kmUpdateTrace beq installed kernels ↔
      k ∈ installed ∧ (kernels.any fun x => beq x k) = false := by
  unfold kmUpdateTrace
  simp only [List.mem_append]
  constructor
  · rintro ((h | h) | h)
    · exact remove_mem_removeSeq_iff.1 h
    · exact absurd (mem_installSeq_shape h).2 (by simp [isRemoveEv])
    · exact absurd (mem_defaultSeq_shape h).2 (by simp [isRemoveEv])
  · intro h
    exact Or.inl (Or.inl (remove_mem_removeSeq_iff.2 h))

theorem setDefault_mem_updateTrace_iff {k : K} {beq : K → K → Bool}
    {installed kernels : List K} :
    KEvent.setDefault k ∈ updateTrace beq installed kernels ↔
      kernels.head? = some k := by
  unfold updateTrace
  simp only [List.mem_append]
  constructor
  · rintro ((h | h) | h)
    · exact absurd (mem_installSeq_shape h).1 (by simp [isInstallPhase])
    · exact absurd (mem_removeSeq_shape h).2 (by simp [isRemoveEv])
    · exact setDefault_mem_defaultSeq_iff.1 h
  · intro h
    exact Or.inr (setDefault_mem_defaultSeq_iff.2 h)

theorem setDefault_mem_kmUpdateTrace_iff {k : K} {beq : K → K → Bool}
    {installed kernels : List K} :
    KEvent.setDefault k ∈ kmUpdateTrace beq installed kernels ↔
      kernels.head? = some k := by
  unfold kmUpdateTrace
  simp only [List.mem_append]
  constructor
  · rintro ((h | h) | h)
    · exact absurd (mem_removeSeq_shape h).2 (by simp [isRemoveEv])
    · exact absurd (mem_installSeq_shape h).1 (by simp [isInstallPhase])
    · exact setDefault_mem_defaultSeq_iff.1 h
  · intro h
    exact Or.inr (setDefault_mem_defaultSeq_iff.2 h)

theorem updateTrace_install_before_remove (beq : K → K → Bool)
    (installed kernels : List K) :
    ∀ i j : Fin (updateTrace beq installed kernels).length,
      isInstallPhase ((updateTrace beq installed kernels).get i) = true →
      isRemoveEv ((updateTrace beq installed kernels).get j) = true →
      (i : Nat) < (j : Nat) := by
  intro i j hi hj
  have htr : updateTrace beq installed kernels =
      installSeq kernels ++
        (removeSeq beq installed kernels ++ defaultSeq kernels) := by
    rw [updateTrace, List.append_assoc]
  have hiA : (i : Nat) < (installSeq kernels).length := by
    by_contra hge
    push_neg at hge
    have hilt : (i : Nat) <
        (installSeq kernels ++
          (removeSeq beq installed kernels ++ defaultSeq kernels)).length := by
      rw [← htr]
      exact i.isLt
    have hbound : (i : Nat) - (installSeq kernels).length <
        (removeSeq beq installed kernels ++ defaultSeq kernels).length := by
      rw [List.length_append] at hilt
      omega
    have hget : (updateTrace beq installed kernels).get i =
        (removeSeq beq installed kernels ++ defaultSeq kernels).get
          ⟨(i : Nat) - (installSeq kernels).length, hbound⟩ := by
      rw [List.get_eq_getElem, List.get_eq_getElem,
        List.getElem_of_eq htr i.isLt, List.getElem_append_right hge]
    have hmem := List.get_mem
      (removeSeq beq installed kernels ++ defaultSeq kernels)
      ((i : Nat) - (installSeq kernels).length) hbound
    rw [hget] at hi
    rcases List.mem_append.1 hmem with hB | hC
    · exact Bool.noConfusion ((mem_removeSeq_shape hB).1.symm.trans hi)
    · exact Bool.noConfusion ((mem_defaultSeq_shape hC).1.symm.trans hi)
  have hjA : (installSeq kernels).length ≤ (j : Nat) := by
    by_contra hlt
    push_neg at hlt
    have hget : (updateTrace beq installed kernels).get j =
        (installSeq kernels).get ⟨(j : Nat), hlt⟩ := by
      rw [List.get_eq_getElem, List.get_eq_getElem,
        List.getElem_of_eq htr j.isLt, List.getElem_append_left hlt]
    have hmem := List.get_mem (installSeq kernels) (j : Nat) hlt
    rw [hget] at hj
    exact Bool.noConfusion ((mem_installSeq_shape hmem).2.symm.trans hj)
  omega

theorem kmUpdateTrace_remove_before_install (beq : K → K → Bool)
    (installed kernels : List K) :
    ∀ i j : Fin (kmUpdateTrace beq installed kernels).length,
      isRemoveEv ((kmUpdateTrace beq installed kernels).get i) = true →
      isInstallPhase ((kmUpdateTrace beq installed kernels).get j) = true →
      (i : Nat) < (j : Nat) := by
  intro i j hi hj
  have htr : kmUpdateTrace beq installed kernels =
      removeSeq beq installed kernels ++
        (installSeq kernels ++ defaultSeq kernels) := by
    rw [kmUpdateTrace, List.append_assoc]
  have hiA : (i : Nat) < (removeSeq beq installed kernels).length := by
    by_contra hge
    push_neg at hge
    have hilt : (i : Nat) <
        (removeSeq beq installed kernels ++
          (installSeq kernels ++ defaultSeq kernels)).length := by
      rw [← htr]
      exact i.isLt
    have hbound : (i : Nat) - (removeSeq beq installed kernels).length <
        (installSeq kernels ++ defaultSeq kernels).length := by
      rw [List.length_append] at hilt
      omega
    have hget : (kmUpdateTrace beq installed kernels).get i =
        (installSeq kernels ++ defaultSeq kernels).get
          ⟨(i : Nat) - (removeSeq beq installed kernels).length, hbound⟩ := by
      rw [List.get_eq_getElem, List.get_eq_getElem,
        List.getElem_of_eq htr i.isLt, List.getElem_append_right hge]
    have hmem := List.get_mem (installSeq kernels ++ defaultSeq kernels)
      ((i : Nat) - (removeSeq beq installed kernels).length) hbound
    rw [hget] at hi
    rcases List.mem_append.1 hmem with hB | hC
    · exact Bool.noConfusion ((mem_installSeq_shape hB).2.symm.trans hi)
    · exact Bool.noConfusion ((mem_defaultSeq_shape hC).2.symm.trans hi)
  have hjA : (removeSeq beq installed kernels).length ≤ (j : Nat) := by
    by_contra hlt
    push_neg at hlt
    have hget : (kmUpdateTrace beq installed kernels).get j =
        (removeSeq beq installed kernels).get ⟨(j : Nat), hlt⟩ := by
      rw [List.get_eq_getElem, List.get_eq_getElem,
        List.getElem_of_eq htr j.isLt, List.getElem_append_left hlt]
    have hmem := List.get_mem (removeSeq beq installed kernels) (j : Nat) hlt
    rw [hget] at hj
    exact Bool.noConfusion ((mem_removeSeq_shape hmem).1.symm.trans hj)
  omega

/-! ## Claim C2 -/

/-- C2 counterexample: `KernelManager::update` (src/kernel_manager.rs)
removes the obsoleted kernel BEFORE installing anything.  With one obsolete
installed kernel `2` and one available kernel `1` the trace opens with the
removal, so "performs all installs before any removal of an obsoleted
kernel" fails at this input. -/
theorem c2_counterexample :
    kmUpdateTrace (fun a b => a == b) [2] [1] =
      [KEvent.remove 2, KEvent.install 1, KEvent.makeConfig 1,
        KEvent.setDefault 1] ∧
    ¬ (∀ i j : Fin (kmUpdateTrace (fun a b => a == b) [2] [1]).length,
        isInstallPhase ((kmUpdateTrace (fun a b => a == b) [2] [1]).get i) =
          true →
        isRemoveEv ((kmUpdateTrace (fun a b => a == b) [2] [1]).get j) =
          true →
        (i : Nat) < (j : Nat)) := by
  constructor
  · decide
  · decide

/-- C2 amended: both `update` variants install every available kernel and
write its entry, remove exactly the installed kernels not contained
(under the kernel `PartialEq`) in the available list, and set the first
(newest) available kernel as the default entry.  The free function `update`
of src/main.rs performs all installs before any removal; `KernelManager::update`
of src/kernel_manager.rs performs all removals of obsoleted kernels before
any install. -/
theorem c2_update_spec {K : Type} (beq : K → K → Bool)
    (installed kernels : List K) :
    (∀ k ∈ kernels,
      KEvent.install k ∈ updateTrace beq installed kernels ∧
      KEvent.makeConfig k ∈ updateTrace beq installed kernels ∧
      KEvent.install k ∈ kmUpdateTrace beq installed kernels ∧
      KEvent.makeConfig k ∈ kmUpdateTrace beq installed kernels) ∧
    (∀ k, KEvent.remove k ∈ updateTrace beq installed kernels ↔
      k ∈ installed ∧ (kernels.any fun x => beq x k) = false) ∧
    (∀ k, KEvent.remove k ∈ kmUpdateTrace beq installed kernels ↔
      k ∈ installed ∧ (kernels.any fun x => beq x k) = false) ∧
    (∀ k, KEvent.setDefault k ∈ updateTrace beq installed kernels ↔
      kernels.head? = some k) ∧
    (∀ k, KEvent.setDefault k ∈ kmUpdateTrace beq installed kernels ↔
      kernels.head? = some k) ∧
    (∀ i j : Fin (updateTrace beq installed kernels).length,
      isInstallPhase ((updateTrace beq installed kernels).get i) = true →
      isRemoveEv ((updateTrace beq installed kernels).get j) = true →
      (i : Nat) < (j : Nat)) ∧
    (∀ i j : Fin (kmUpdateTrace beq installed kernels).length,
      isRemoveEv ((kmUpdateTrace beq installed kernels).get i) = true →
      isInstallPhase ((kmUpdateTrace beq installed kernels).get j) = true →
      (i : Nat) < (j : Nat)) := by
  refine ⟨?_, ?_, ?_, ?_, ?_, ?_, ?_⟩
  · intro k hk
    obtain ⟨h1, h2⟩ := install_mem_installSeq hk
    refine ⟨?_, ?_, ?_, ?_⟩
    · rw [updateTrace]
      simp only [List.mem_append]
      exact Or.inl (Or.inl h1)
    · rw [updateTrace]
      simp only [List.mem_append]
      exact Or.inl (Or.inl h2)
    · rw [kmUpdateTrace]
      simp only [List.mem_append]
      exact Or.inl (Or.inr h1)
    · rw [kmUpdateTrace]
      simp only [List.mem_append]
      exact Or.inl (Or.inr h2)
  · exact fun k => remove_mem_updateTrace_iff
  · exact fun k => remove_mem_kmUpdateTrace_iff
  · exact fun k => setDefault_mem_updateTrace_iff
  · exact fun k => setDefault_mem_kmUpdateTrace_iff
  · exact updateTrace_install_before_remove beq installed kernels
  · exact kmUpdateTrace_remove_before_install beq installed kernels

/-- Witness for C2 (amended) on the spec scenario:
available = [`5.15.0-rc1-x`, `5.14.9-x`], installed = [] — both kernels are
installed with entries written, nothing is removed, and the default becomes
the first (newest) available kernel. -/
theorem c2_witness :
    KEvent.install "5.15.0-rc1-x" ∈
      updateTrace (fun a b : String => a == b) [] ["5.15.0-rc1-x", "5.14.9-x"] ∧
    KEvent.makeConfig "5.14.9-x" ∈
      updateTrace (fun a b : String => a == b) [] ["5.15.0-rc1-x", "5.14.9-x"] ∧
    ¬ KEvent.remove "5.14.9-x" ∈
      updateTrace (fun a b : String => a == b) [] ["5.15.0-rc1-x", "5.14.9-x"] ∧
    KEvent.setDefault "5.15.0-rc1-x" ∈
      updateTrace (fun a b : String => a == b) [] ["5.15.0-rc1-x", "5.14.9-x"] := by
  have h := c2_update_spec (fun a b : String => a == b) []
    ["5.15.0-rc1-x", "5.14.9-x"]
  refine ⟨(h.1 "5.15.0-rc1-x" (by simp)).1, (h.1 "5.14.9-x" (by simp)).2.1,
    ?_, (h.2.2.2.1 "5.15.0-rc1-x").2 rfl⟩
  intro hcontra
  exact absurd ((h.2.1 "5.14.9-x").1 hcontra).1 (by simp)

/-! ## Helper lemmas: discovery -/

theorem listScan_kernels {K : Type} (parseK : String → Option K)
    (dirs : List ModuleDir) :
    (listScan parseK dirs).1 =
      (dirs.filter completeModules).filterMap (fun d => parseK d.name) := by
  induction dirs with
  | nil => rfl
  | cons d ds ih =>
    unfold listScan
    cases hc : completeModules d
    · simp [hc, List.filter_cons, ih]
    · cases hp : parseK d.name <;>
        simp [hc, hp, List.filter_cons, List.filterMap_cons, ih]

theorem listScan_warn {K : Type} (parseK : String → Option K)
    (dirs : List ModuleDir) :
    ∀ d ∈ dirs, completeModules d = false ∨ parseK d.name = none →
      d.name ∈ (listScan parseK dirs).2 := by
  induction dirs with
  | nil => intro d hd; simp at hd
  | cons d0 ds ih =>
    intro d hd hcond
    rcases List.mem_cons.1 hd with rfl | hd'
    · unfold listScan
      rcases hcond with hc | hp
      · rw [hc]
        simp
      · cases hc : completeModules d
        · simp
        · rw [hp]
          simp
    · have hmem := ih d hd' hcond
      unfold listScan
      cases hc : completeModules d0
      · simpa using Or.inr hmem
      · cases hp : parseK d0.name
        · simpa using Or.inr hmem
        · simpa using hmem

theorem installedScan_error_iff {K : Type} (parseK : String → Option K)
    (matcher : String → Option String) (files : List String) :
    installedScan parseK matcher files = .error () ↔
      ∃ f ∈ files, ∃ v, matcher f = some v ∧ parseK v = none := by
  induction files with
  | nil => simp [installedScan]
  | cons f fs ih =>
    unfold installedScan
    cases hm : matcher f
    · rw [ih]
      constructor
      · rintro ⟨g, hg, v, hv1, hv2⟩
        exact ⟨g, by simp [hg], v, hv1, hv2⟩
      · rintro ⟨g, hg, v, hv1, hv2⟩
        rcases List.mem_cons.1 hg with rfl | hg'
        · rw [hm] at hv1
          exact Option.noConfusion hv1
        · exact ⟨g, hg', v, hv1, hv2⟩
    · rename_i ver
      cases hp : parseK ver
      · simp only [hp]
        constructor
        · intro _
          exact ⟨f, by simp, ver, hm, hp⟩
        · intro _
          trivial
      · rename_i k
        cases hs : installedScan parseK matcher fs
        · rename_i e
          cases e
          simp only [hp, hs]
          constructor
          · intro _
            obtain ⟨g, hg, v, hv1, hv2⟩ := ih.1 hs
            exact ⟨g, by simp [hg], v, hv1, hv2⟩
          · intro _
            trivial
        · rename_i ks
          simp only [hp, hs]
          constructor
          · intro hcontra
            exact Except.noConfusion hcontra
          · rintro ⟨g, hg, v, hv1, hv2⟩
            rcases List.mem_cons.1 hg with rfl | hg'
            · rw [hm] at hv1
              rw [Option.some.inj hv1] at hp
              rw [hp] at hv2
              exact Option.noConfusion hv2
            · have := ih.2 ⟨g, hg', v, hv1, hv2⟩
              rw [this] at hs
              exact Except.noConfusion hs

theorem listInstalled_error_iff {K : Type} (parseK : String → Option K)
    (cmpK : K → K → Ordering) (matcher : String → Option String)
    (files : List String) :
    listInstalled parseK cmpK matcher files = .error () ↔
      ∃ f ∈ files, ∃ v, matcher f = some v ∧ parseK v = none := by
  unfold listInstalled
  cases hs : installedScan parseK matcher files
  · rename_i e
    cases e
    rw [← installedScan_error_iff parseK matcher files]
    simp [hs]
  · rename_i ks
    rw [← installedScan_error_iff parseK matcher files]
    simp [hs]

theorem listInstalled_ok_sorted {K : Type} (parseK : String → Option K)
    (cmpK : K → K → Ordering) [Batteries.TransCmp cmpK]
    (matcher : String → Option String) (files : List String) (ks : List K)
    (h : listInstalled parseK cmpK matcher files = .ok ks) :
    ks.Sorted (cmpGe cmpK) := by
  unfold listInstalled at h
  cases hs : installedScan parseK matcher files
  · rw [hs] at h
    exact Except.noConfusion h
  · rw [hs] at h
    rw [← Except.ok.inj h]
    exact sortNewestFirst_sorted cmpK _

/-! ## Claim C7 -/

/-- C7 counterexample: a single ESP filename that matches the image template
but carries an unparseable version (`vmlinuz-garbage`) makes
`list_installed` return an ERROR (the loop uses `Self::parse(..)?`),
refuting "neither list (available) nor list_installed returns an error
because of such a candidate" — while `list` (available) really does skip the
same name with a warning. -/
theorem c7_counterexample :
    listInstalled Version.parse Version.cmp vmlinuzMatcher
      ["vmlinuz-garbage"] = .error () ∧
    (listAvailable Version.parse Version.cmp
      [{ name := "garbage", hasDep := true, hasOrder := true,
         hasBuiltin := true }]).1 = [] ∧
    (listAvailable Version.parse Version.cmp
      [{ name := "garbage", hasDep := true, hasOrder := true,
         hasBuiltin := true }]).2 = ["garbage"] := by
  refine ⟨by rfl, by decide, by decide⟩

/-- C7 amended: `list` (available) skips an incomplete or unparseable
candidate with a warning naming it, returns no error, and its result is
sorted newest-first (and is a permutation of the parses of the complete
candidates); `list_installed`, by contrast, returns an error exactly when
some template-matching filename carries an unparseable version (filenames
not matching the template are skipped silently), and on success its result
is sorted newest-first. -/
theorem c7_discovery_policy {K : Type} (parseK : String → Option K)
    (cmpK : K → K → Ordering) [Batteries.TransCmp cmpK]
    (dirs : List ModuleDir) (matcher : String → Option String)
    (files : List String) :
    (listAvailable parseK cmpK dirs).1.Sorted (cmpGe cmpK) ∧
    (listAvailable parseK cmpK dirs).1.Perm
      ((dirs.filter completeModules).filterMap (fun d => parseK d.name)) ∧
    (∀ d ∈ dirs, completeModules d = false ∨ parseK d.name = none →
      d.name ∈ (listAvailable parseK cmpK dirs).2) ∧
    (listInstalled parseK cmpK matcher files = .error () ↔
      ∃ f ∈ files, ∃ v, matcher f = some v ∧ parseK v = none) ∧
    (∀ ks, listInstalled parseK cmpK matcher files = .ok ks →
      ks.Sorted (cmpGe cmpK)) := by
  refine ⟨?_, ?_, ?_, ?_, ?_⟩
  · exact sortNewestFirst_sorted cmpK _
  · rw [show (listAvailable parseK cmpK dirs).1 =
      sortNewestFirst cmpK (listScan parseK dirs).1 from rfl,
      listScan_kernels]
    exact sortNewestFirst_perm cmpK _
  · intro d hd hcond
    exact listScan_warn parseK dirs d hd hcond
  · exact listInstalled_error_iff parseK cmpK matcher files
  · exact fun ks h => listInstalled_ok_sorted parseK cmpK matcher files ks h

/-- Witness for C7 (amended) at a concrete scan: one good candidate, one
incomplete, one unparseable — the good one survives, the other two are
warned about; and an ESP with only parseable matches lists successfully. -/
theorem c7_witness :
    "5.9" ∈ (listAvailable Version.parse Version.cmp
      [{ name := "5.10.0-11-amd64", hasDep := true, hasOrder := true,
         hasBuiltin := true },
       { name := "5.9", hasDep := false, hasOrder := true, hasBuiltin := true },
       { name := "garbage", hasDep := true, hasOrder := true,
         hasBuiltin := true }]).2 ∧
    "garbage" ∈ (listAvailable Version.parse Version.cmp
      [{ name := "5.10.0-11-amd64", hasDep := true, hasOrder := true,
         hasBuiltin := true },
       { name := "5.9", hasDep := false, hasOrder := true, hasBuiltin := true },
       { name := "garbage", hasDep := true, hasOrder := true,
         hasBuiltin := true }]).2 ∧
    ¬ listInstalled Version.parse Version.cmp vmlinuzMatcher
      ["vmlinuz-5.10.0-11-amd64"] = .error () := by
  have h := c7_discovery_policy Version.parse Version.cmp
    [{ name := "5.10.0-11-amd64", hasDep := true, hasOrder := true,
       hasBuiltin := true },
     { name := "5.9", hasDep := false, hasOrder := true, hasBuiltin := true },
     { name := "garbage", hasDep := true, hasOrder := true,
       hasBuiltin := true }] vmlinuzMatcher ["vmlinuz-5.10.0-11-amd64"]
  refine ⟨?_, ?_, ?_⟩
  · exact h.2.2.1
      { name := "5.9", hasDep := false, hasOrder := true, hasBuiltin := true }
      (by simp) (Or.inl (by decide))
  · exact h.2.2.1
      { name := "garbage", hasDep := true, hasOrder := true, hasBuiltin := true }
      (by simp) (Or.inr (by decide))
  · intro hcontra
    obtain ⟨f, hf, v, hv1, hv2⟩ := h.2.2.2.1.1 hcontra
    rcases List.mem_singleton.1 hf with rfl
    rw [show vmlinuzMatcher "vmlinuz-5.10.0-11-amd64" =
      some "5.10.0-11-amd64" by decide] at hv1
    rw [← Option.some.inj hv1] at hv2
    rw [show Version.parse "5.10.0-11-amd64" =
      some ⟨5, 10, 0, none, some 11, "-amd64".toList⟩ by decide] at hv2
    exact Option.noConfusion hv2
